import Mathlib

/-!
Verification development for the `sec` CLI: a local encrypted secret vault
(Go sources: `sec.go` and `src/sec/store/store.go`).

The Go program stores a `SecretStore = map[string]string` as one encrypted
file (`24-byte nonce || AEAD-sealed JSON`), optionally gated by a bcrypt
PIN verifier kept under the reserved key `__meta__pin_hash`.

Modelling conventions:
- Go byte strings are `List Nat` with each element a byte value.
- A Go map is represented canonically as an association list whose keys are
  strictly sorted in byte-lexicographic order (`StoreWF`); `mapSet`,
  `mapDelete` preserve this invariant, which quotients away Go's
  unspecified map iteration order.
- `encoding/json` marshalling of `map[string]string` is modelled at byte
  level, including Go's sorted-key output, its string escaping
  (HTML-escaping of `<`, `>`, `&`, `\u00XX` for control bytes, U+2028,
  U+2029) and its coercion of invalid UTF-8 to U+FFFD.
- The external crypto libraries (`chacha20poly1305`, `bcrypt`) are modelled
  at the level of their interface contracts: a deterministic
  length-preserving keystream xor plus a key-dependent tag for the AEAD,
  and a deterministic injective digest for bcrypt.  Randomness (nonces,
  fresh keys) is passed in explicitly.
- Filesystem effects are an association list of path to contents and
  permission bits; a write takes an optional fault that truncates the file
  after `k` bytes, modelling a failed `ioutil.WriteFile` (which opens with
  `O_TRUNC`).
-/

/-- Go byte strings (`string`, `[]byte`) as lists of byte values. -/
abbrev Bytes := List Nat

/-- Byte-lexicographic strict order on byte strings, as used by Go's `<` on
`string` (and hence by `encoding/json` when sorting map keys). -/
def lexLt : Bytes → Bytes → Bool
  | [], [] => false
  | [], _ :: _ => true
  | _ :: _, [] => false
  | a :: as, b :: bs => if a < b then true else if b < a then false else lexLt as bs

/-! ### UTF-8 decoding, encoding and Go's U+FFFD coercion

These model `unicode/utf8.DecodeRune` / `EncodeRune` exactly on the byte
windows Go accepts (no overlong forms, no surrogates, max U+10FFFF). -/

/-- Whether `b1` is a UTF-8 continuation byte. -/
def contB (b : Nat) : Prop := 0x80 ≤ b ∧ b ≤ 0xBF

instance (b : Nat) : Decidable (contB b) := by unfold contB; infer_instance

/-- Second-byte window for a 3-byte sequence led by `b0`, per Go's
`utf8.acceptRanges` (excludes overlong forms and surrogates). -/
def accept3 (b0 b1 : Nat) : Prop :=
  (b0 = 0xE0 ∧ 0xA0 ≤ b1 ∧ b1 ≤ 0xBF) ∨
  (0xE1 ≤ b0 ∧ b0 ≤ 0xEC ∧ contB b1) ∨
  (b0 = 0xED ∧ 0x80 ≤ b1 ∧ b1 ≤ 0x9F) ∨
  (0xEE ≤ b0 ∧ b0 ≤ 0xEF ∧ contB b1)

instance (b0 b1 : Nat) : Decidable (accept3 b0 b1) := by unfold accept3; infer_instance

/-- Second-byte window for a 4-byte sequence led by `b0`. -/
def accept4 (b0 b1 : Nat) : Prop :=
  (b0 = 0xF0 ∧ 0x90 ≤ b1 ∧ b1 ≤ 0xBF) ∨
  (0xF1 ≤ b0 ∧ b0 ≤ 0xF3 ∧ contB b1) ∨
  (b0 = 0xF4 ∧ 0x80 ≤ b1 ∧ b1 ≤ 0x8F)

instance (b0 b1 : Nat) : Decidable (accept4 b0 b1) := by unfold accept4; infer_instance

/-- Rune value of a 2-byte sequence. -/
def rune2 (b0 b1 : Nat) : Nat := (b0 - 0xC0) * 64 + (b1 - 0x80)

/-- Rune value of a 3-byte sequence. -/
def rune3 (b0 b1 b2 : Nat) : Nat := (b0 - 0xE0) * 4096 + (b1 - 0x80) * 64 + (b2 - 0x80)

/-- Rune value of a 4-byte sequence. -/
def rune4 (b0 b1 b2 b3 : Nat) : Nat :=
  (b0 - 0xF0) * 262144 + (b1 - 0x80) * 4096 + (b2 - 0x80) * 64 + (b3 - 0x80)

/-- Model of `utf8.EncodeRune`: UTF-8 bytes of a rune, with surrogates and
out-of-range values encoded as U+FFFD (`EF BF BD`), as Go does. -/
def encodeRuneGo (r : Nat) : Bytes :=
  if r < 0x80 then [r]
  else if r < 0x800 then [0xC0 + r / 64, 0x80 + r % 64]
  else if 0xD800 ≤ r ∧ r < 0xE000 then [0xEF, 0xBF, 0xBD]
  else if r < 0x10000 then [0xE0 + r / 4096, 0x80 + (r / 64) % 64, 0x80 + r % 64]
  else if r < 0x110000 then
    [0xF0 + r / 262144, 0x80 + (r / 4096) % 64, 0x80 + (r / 64) % 64, 0x80 + r % 64]
  else [0xEF, 0xBF, 0xBD]

/-- Fuel-driven body of `utf8Coerce`; fuel bounds the number of steps and is
at least the input length at every call site. -/
def utf8CoerceF : Nat → Bytes → Bytes
  | _, [] => []
  | 0, l => l
  | fuel + 1, b0 :: t =>
    if b0 < 0x80 then b0 :: utf8CoerceF fuel t
    else match t with
    | [] => [0xEF, 0xBF, 0xBD]
    | b1 :: t1 =>
      if 0xC2 ≤ b0 ∧ b0 ≤ 0xDF ∧ contB b1 then b0 :: b1 :: utf8CoerceF fuel t1
      else match t1 with
      | [] => 0xEF :: 0xBF :: 0xBD :: utf8CoerceF fuel t
      | b2 :: t2 =>
        if accept3 b0 b1 ∧ contB b2 then b0 :: b1 :: b2 :: utf8CoerceF fuel t2
        else match t2 with
        | [] => 0xEF :: 0xBF :: 0xBD :: utf8CoerceF fuel t
        | b3 :: t3 =>
          if accept4 b0 b1 ∧ contB b2 ∧ contB b3 then
            b0 :: b1 :: b2 :: b3 :: utf8CoerceF fuel t3
          else 0xEF :: 0xBF :: 0xBD :: utf8CoerceF fuel t

/-- Go's coercion of a byte string to valid UTF-8 (`utf8.DecodeRune` walk,
replacing each invalid byte by U+FFFD).  This is what `json.Marshal`
performs on string values, per the `encoding/json` documentation. -/
def utf8Coerce (l : Bytes) : Bytes := utf8CoerceF l.length l

/-- Fuel-driven body of `utf8Valid`. -/
def utf8ValidF : Nat → Bytes → Bool
  | _, [] => true
  | 0, _ => false
  | fuel + 1, b0 :: t =>
    if b0 < 0x80 then utf8ValidF fuel t
    else match t with
    | [] => false
    | b1 :: t1 =>
      if 0xC2 ≤ b0 ∧ b0 ≤ 0xDF ∧ contB b1 then utf8ValidF fuel t1
      else match t1 with
      | [] => false
      | b2 :: t2 =>
        if accept3 b0 b1 ∧ contB b2 then utf8ValidF fuel t2
        else match t2 with
        | [] => false
        | b3 :: t3 =>
          if accept4 b0 b1 ∧ contB b2 ∧ contB b3 then utf8ValidF fuel t3
          else false

/-- Whether a byte string is valid UTF-8 (model of `utf8.Valid`). -/
def utf8Valid (l : Bytes) : Bool := utf8ValidF l.length l

/-! ### JSON string encoding (`encoding/json` with its default HTML escaping) -/

/-- Lowercase hex digit byte, as used by `encoding/json` (`"0123456789abcdef"`). -/
def hexDigit (n : Nat) : Nat := if n < 10 then 48 + n else 87 + n

/-- Whether an ASCII byte is emitted verbatim inside a JSON string by Go's
encoder with HTML escaping on (`htmlSafeSet`): printable, not `"`, `\`,
`<`, `>`, `&`. -/
def jsonSafeByte (b : Nat) : Prop :=
  0x20 ≤ b ∧ b ≠ 0x22 ∧ b ≠ 0x5C ∧ b ≠ 0x3C ∧ b ≠ 0x3E ∧ b ≠ 0x26

instance (b : Nat) : Decidable (jsonSafeByte b) := by unfold jsonSafeByte; infer_instance

/-- Escape sequence Go's encoder emits for an unsafe ASCII byte. -/
def escByte (b : Nat) : Bytes :=
  if b = 0x22 then [0x5C, 0x22]
  else if b = 0x5C then [0x5C, 0x5C]
  else if b = 0x0A then [0x5C, 0x6E]
  else if b = 0x0D then [0x5C, 0x72]
  else if b = 0x09 then [0x5C, 0x74]
  else [0x5C, 0x75, 0x30, 0x30, hexDigit (b / 16), hexDigit (b % 16)]

/-- The six bytes of the escape `�` emitted for an invalid UTF-8 byte. -/
def fffdEsc : Bytes := [0x5C, 0x75, 0x66, 0x66, 0x66, 0x64]

/-- Fuel-driven body of `encodeStringBytes`. -/
def encodeStringBytesF : Nat → Bytes → Bytes
  | _, [] => []
  | 0, l => l
  | fuel + 1, b0 :: t =>
    if b0 < 0x80 then
      (if jsonSafeByte b0 then [b0] else escByte b0) ++ encodeStringBytesF fuel t
    else match t with
    | [] => fffdEsc
    | b1 :: t1 =>
      if 0xC2 ≤ b0 ∧ b0 ≤ 0xDF ∧ contB b1 then b0 :: b1 :: encodeStringBytesF fuel t1
      else match t1 with
      | [] => fffdEsc ++ encodeStringBytesF fuel t
      | b2 :: t2 =>
        if accept3 b0 b1 ∧ contB b2 then
          if rune3 b0 b1 b2 = 0x2028 then
            [0x5C, 0x75, 0x32, 0x30, 0x32, 0x38] ++ encodeStringBytesF fuel t2
          else if rune3 b0 b1 b2 = 0x2029 then
            [0x5C, 0x75, 0x32, 0x30, 0x32, 0x39] ++ encodeStringBytesF fuel t2
          else b0 :: b1 :: b2 :: encodeStringBytesF fuel t2
        else match t2 with
        | [] => fffdEsc ++ encodeStringBytesF fuel t
        | b3 :: t3 =>
          if accept4 b0 b1 ∧ contB b2 ∧ contB b3 then
            b0 :: b1 :: b2 :: b3 :: encodeStringBytesF fuel t3
          else fffdEsc ++ encodeStringBytesF fuel t

/-- Model of `encoding/json`'s string-body encoder (`appendString` with
`escapeHTML = true`): safe ASCII is copied, unsafe ASCII is escaped, valid
multi-byte runes are copied verbatim except U+2028/U+2029 which are
escaped, and each invalid byte becomes the escape `\\ufffd`. -/
def encodeStringBytes (l : Bytes) : Bytes := encodeStringBytesF l.length l

/-! ### JSON string decoding (`encoding/json` `unquote`) -/

/-- Hex digit value accepted by `encoding/json`'s `getu4` (0-9, a-f, A-F). -/
def hexVal (c : Nat) : Option Nat :=
  if 48 ≤ c ∧ c ≤ 57 then some (c - 48)
  else if 97 ≤ c ∧ c ≤ 102 then some (c - 87)
  else if 65 ≤ c ∧ c ≤ 70 then some (c - 55)
  else none

/-- Prepend one byte to the decoded part of a string-decoder result. -/
def dcons (x : Nat) (o : Option (Bytes × Bytes)) : Option (Bytes × Bytes) :=
  o.map (fun p => (x :: p.1, p.2))

/-- Prepend several bytes to the decoded part of a string-decoder result. -/
def dapp (xs : Bytes) (o : Option (Bytes × Bytes)) : Option (Bytes × Bytes) :=
  o.map (fun p => (xs ++ p.1, p.2))

/-- Parse four hex digits (`encoding/json`'s `getu4`). -/
def hex4 (t : Bytes) : Option (Nat × Bytes) :=
  match t with
  | h1 :: h2 :: h3 :: h4 :: r =>
    match hexVal h1, hexVal h2, hexVal h3, hexVal h4 with
    | some v1, some v2, some v3, some v4 => some (((v1 * 16 + v2) * 16 + v3) * 16 + v4, r)
    | _, _, _, _ => none
  | _ => none

/-- Decode a `\\uXXXX` escape body, with UTF-16 surrogate-pair handling as
in Go's `unquote`: a valid high+low pair is combined, any unpaired
surrogate becomes U+FFFD without consuming the next escape. -/
def decodeU (t1 : Bytes) : Option (Bytes × Bytes) :=
  match hex4 t1 with
  | none => none
  | some (r, t5) =>
    if 0xD800 ≤ r ∧ r < 0xE000 then
      match t5 with
      | a :: b :: rest2 =>
        if a = 0x5C ∧ b = 0x75 then
          match hex4 rest2 with
          | some (r2, t11) =>
            if r < 0xDC00 ∧ 0xDC00 ≤ r2 ∧ r2 < 0xE000 then
              some (encodeRuneGo (0x10000 + (r - 0xD800) * 1024 + (r2 - 0xDC00)), t11)
            else some ([0xEF, 0xBF, 0xBD], t5)
          | none => some ([0xEF, 0xBF, 0xBD], t5)
        else some ([0xEF, 0xBF, 0xBD], t5)
      | _ => some ([0xEF, 0xBF, 0xBD], t5)
    else some (encodeRuneGo r, t5)

/-- Decode one backslash escape (the byte after the backslash is `e`). -/
def decodeEsc (e : Nat) (t1 : Bytes) : Option (Bytes × Bytes) :=
  if e = 0x22 then some ([0x22], t1)
  else if e = 0x5C then some ([0x5C], t1)
  else if e = 0x2F then some ([0x2F], t1)
  else if e = 0x62 then some ([0x08], t1)
  else if e = 0x66 then some ([0x0C], t1)
  else if e = 0x6E then some ([0x0A], t1)
  else if e = 0x72 then some ([0x0D], t1)
  else if e = 0x74 then some ([0x09], t1)
  else if e = 0x75 then decodeU t1
  else none

/-- Decode one item of a JSON string body: an escape, a plain ASCII byte,
or one UTF-8 rune (invalid bytes coerced to U+FFFD, as Go's `unquote`
re-encodes what `utf8.DecodeRune` returns).  Returns the produced bytes
and the remaining input; `none` is a syntax error.  Raw control bytes are
rejected, as by Go's scanner. -/
def decodeOne (b : Nat) (t : Bytes) : Option (Bytes × Bytes) :=
  if b = 0x5C then
    match t with
    | [] => none
    | e :: t1 => decodeEsc e t1
  else if b < 0x20 then none
  else if b < 0x80 then some ([b], t)
  else match t with
    | [] => some ([0xEF, 0xBF, 0xBD], t)
    | b1 :: t1 =>
      if 0xC2 ≤ b ∧ b ≤ 0xDF ∧ contB b1 then some ([b, b1], t1)
      else match t1 with
      | [] => some ([0xEF, 0xBF, 0xBD], t)
      | b2 :: t2 =>
        if accept3 b b1 ∧ contB b2 then some ([b, b1, b2], t2)
        else match t2 with
        | [] => some ([0xEF, 0xBF, 0xBD], t)
        | b3 :: t3 =>
          if accept4 b b1 ∧ contB b2 ∧ contB b3 then some ([b, b1, b2, b3], t3)
          else some ([0xEF, 0xBF, 0xBD], t)

/-- Fuel-driven body of `jsonDecodeString`.  Input is the byte stream after
the opening quote; on success returns the decoded string body and the bytes
after the closing quote. -/
def jsonDecodeStringF : Nat → Bytes → Option (Bytes × Bytes)
  | 0, _ => none
  | fuel + 1, l =>
    match l with
    | [] => none
    | b :: t =>
      if b = 0x22 then some ([], t)
      else match decodeOne b t with
        | none => none
        | some (c, r) => dapp c (jsonDecodeStringF fuel r)

/-- JSON string-body decoder (see `jsonDecodeStringF`). -/
def jsonDecodeString (l : Bytes) : Option (Bytes × Bytes) := jsonDecodeStringF l.length l

/-! ### The secret mapping (`SecretStore = map[string]string`) -/

/-- Go's `SecretStore` map, represented canonically as an association list
with strictly `lexLt`-sorted keys. -/
abbrev SecretStore := List (Bytes × Bytes)

/-- The canonical-representation invariant: keys strictly sorted. -/
def StoreWF (s : SecretStore) : Prop :=
  List.Pairwise (fun p q => lexLt p.1 q.1 = true) s

instance (s : SecretStore) : Decidable (StoreWF s) := by
  unfold StoreWF; infer_instance

/-- Map lookup (`v, ok := store[k]`). -/
def mapGet? : SecretStore → Bytes → Option Bytes
  | [], _ => none
  | (k1, v1) :: t, k => if k = k1 then some v1 else mapGet? t k

/-- Map lookup with Go's zero value (`store[k]`, yielding `""` if absent). -/
def mapGet (s : SecretStore) (k : Bytes) : Bytes := (mapGet? s k).getD []

/-- Key-presence test (`_, ok := store[k]`). -/
def mapHas (s : SecretStore) (k : Bytes) : Bool := (mapGet? s k).isSome

/-- Map assignment (`store[k] = v`), preserving the canonical order. -/
def mapSet : SecretStore → Bytes → Bytes → SecretStore
  | [], k, v => [(k, v)]
  | (k1, v1) :: t, k, v =>
    if k = k1 then (k, v) :: t
    else if lexLt k k1 then (k, v) :: (k1, v1) :: t
    else (k1, v1) :: mapSet t k v

/-- Map deletion (`delete(store, k)`). -/
def mapDelete : SecretStore → Bytes → SecretStore
  | [], _ => []
  | (k1, v1) :: t, k => if k1 = k then mapDelete t k else (k1, v1) :: mapDelete t k

/-! ### JSON marshalling of the mapping (`json.Marshal` / `json.Unmarshal`) -/

/-- Skip JSON whitespace. -/
def skipWS : Bytes → Bytes
  | [] => []
  | c :: t => if c = 0x20 ∨ c = 0x09 ∨ c = 0x0A ∨ c = 0x0D then skipWS t else c :: t

/-- One `"key":"value"` item of `json.Marshal`'s output. -/
def marshalPair (p : Bytes × Bytes) : Bytes :=
  0x22 :: encodeStringBytes p.1 ++ 0x22 :: 0x3A :: 0x22 :: encodeStringBytes p.2 ++ [0x22]

/-- Comma-separated items of `json.Marshal`'s output.  `json.Marshal` emits
map entries sorted by key; `SecretStore` is kept in that order. -/
def marshalPairs : SecretStore → Bytes
  | [] => []
  | [p] => marshalPair p
  | p :: q :: rest => marshalPair p ++ 0x2C :: marshalPairs (q :: rest)

/-- Model of `json.Marshal` on a `SecretStore` (in canonical key order). -/
def jsonMarshal (s : SecretStore) : Bytes := 0x7B :: marshalPairs s ++ [0x7D]

/-- Fuel-driven object-member loop of `jsonUnmarshal`: parses
`"k":"v"` items separated by `,` until `}`, assigning each into the map as
`m[k] = v` does (later duplicates win). -/
def parsePairsF : Nat → Bytes → SecretStore → Option SecretStore
  | 0, _, _ => none
  | fuel + 1, l, acc =>
    match skipWS l with
    | [] => none
    | c :: t =>
      if c = 0x22 then
        match jsonDecodeString t with
        | none => none
        | some (k, r1) =>
          match skipWS r1 with
          | [] => none
          | c2 :: r2 =>
            if c2 = 0x3A then
              match skipWS r2 with
              | [] => none
              | c3 :: r3 =>
                if c3 = 0x22 then
                  match jsonDecodeString r3 with
                  | none => none
                  | some (v, r4) =>
                    match skipWS r4 with
                    | [] => none
                    | c4 :: r5 =>
                      if c4 = 0x2C then parsePairsF fuel r5 (mapSet acc k v)
                      else if c4 = 0x7D then
                        if skipWS r5 = [] then some (mapSet acc k v) else none
                      else none
                else none
            else none
      else none

/-- Model of `json.Unmarshal(data, &store)` for `store : map[string]string`:
accepts a JSON object of string values (or `null`, which leaves the map
nil, indistinguishable from empty here), rejecting anything else or any
trailing non-whitespace, as Go does. -/
def jsonUnmarshal (data : Bytes) : Option SecretStore :=
  match skipWS data with
  | [] => none
  | c :: t =>
    if c = 0x7B then
      match skipWS t with
      | [] => parsePairsF (data.length + 1) t []
      | c2 :: r =>
        if c2 = 0x7D then (if skipWS r = [] then some [] else none)
        else parsePairsF (data.length + 1) t []
    else if c = 0x6E then
      match t with
      | u :: l1 :: l2 :: r =>
        if u = 0x75 ∧ l1 = 0x6C ∧ l2 = 0x6C ∧ skipWS r = [] then some [] else none
      | _ => none
    else none

/-! ### Fuel congruence: any fuel at least the input length gives the same
result, so the wrappers are well defined. -/

theorem utf8CoerceF_congr : ∀ f1 f2 l, l.length ≤ f1 → l.length ≤ f2 →
    utf8CoerceF f1 l = utf8CoerceF f2 l := by
  intro f1
  induction f1 with
  | zero =>
    intro f2 l h1 _
    have hl : l = [] := List.length_eq_zero.mp (Nat.le_zero.mp h1)
    subst hl
    cases f2 <;> rfl
  | succ n ih =>
    intro f2 l h1 h2
    cases l with
    | nil => cases f2 <;> rfl
    | cons b0 t =>
      cases f2 with
      | zero => simp at h2
      | succ m =>
        simp only [List.length_cons, Nat.succ_le_succ_iff] at h1 h2
        simp only [utf8CoerceF]
        by_cases hb : b0 < 0x80
        · simp only [if_pos hb]
          rw [ih m t h1 h2]
        · simp only [if_neg hb]
          cases t with
          | nil => rfl
          | cons b1 t1 =>
            simp only [List.length_cons] at h1 h2
            by_cases hc : 0xC2 ≤ b0 ∧ b0 ≤ 0xDF ∧ contB b1
            · simp only [if_pos hc]
              rw [ih m t1 (by omega) (by omega)]
            · simp only [if_neg hc]
              cases t1 with
              | nil =>
                rw [ih m [b1] (by simp; omega) (by simp; omega)]
              | cons b2 t2 =>
                simp only [List.length_cons] at h1 h2
                by_cases hd : accept3 b0 b1 ∧ contB b2
                · simp only [if_pos hd]
                  rw [ih m t2 (by omega) (by omega)]
                · simp only [if_neg hd]
                  cases t2 with
                  | nil =>
                    rw [ih m [b1, b2] (by simp; omega) (by simp; omega)]
                  | cons b3 t3 =>
                    simp only [List.length_cons] at h1 h2
                    by_cases he : accept4 b0 b1 ∧ contB b2 ∧ contB b3
                    · simp only [if_pos he]
                      rw [ih m t3 (by omega) (by omega)]
                    · simp only [if_neg he]
                      rw [ih m (b1 :: b2 :: b3 :: t3) (by simp; omega) (by simp; omega)]

theorem utf8CoerceF_eq (fuel : Nat) (l : Bytes) (h : l.length ≤ fuel) :
    utf8CoerceF fuel l = utf8Coerce l :=
  utf8CoerceF_congr fuel l.length l h (Nat.le_refl _)

theorem encodeStringBytesF_congr : ∀ f1 f2 l, l.length ≤ f1 → l.length ≤ f2 →
    encodeStringBytesF f1 l = encodeStringBytesF f2 l := by
  intro f1
  induction f1 with
  | zero =>
    intro f2 l h1 _
    have hl : l = [] := List.length_eq_zero.mp (Nat.le_zero.mp h1)
    subst hl
    cases f2 <;> rfl
  | succ n ih =>
    intro f2 l h1 h2
    cases l with
    | nil => cases f2 <;> rfl
    | cons b0 t =>
      cases f2 with
      | zero => simp at h2
      | succ m =>
        simp only [List.length_cons, Nat.succ_le_succ_iff] at h1 h2
        simp only [encodeStringBytesF]
        by_cases hb : b0 < 0x80
        · simp only [if_pos hb]
          rw [ih m t h1 h2]
        · simp only [if_neg hb]
          cases t with
          | nil => rfl
          | cons b1 t1 =>
            simp only [List.length_cons] at h1 h2
            by_cases hc : 0xC2 ≤ b0 ∧ b0 ≤ 0xDF ∧ contB b1
            · simp only [if_pos hc]
              rw [ih m t1 (by omega) (by omega)]
            · simp only [if_neg hc]
              cases t1 with
              | nil =>
                rw [ih m [b1] (by simp; omega) (by simp; omega)]
              | cons b2 t2 =>
                simp only [List.length_cons] at h1 h2
                by_cases hd : accept3 b0 b1 ∧ contB b2
                · simp only [if_pos hd]
                  by_cases h28 : rune3 b0 b1 b2 = 0x2028
                  · simp only [if_pos h28]
                    rw [ih m t2 (by omega) (by omega)]
                  · simp only [if_neg h28]
                    by_cases h29 : rune3 b0 b1 b2 = 0x2029
                    · simp only [if_pos h29]
                      rw [ih m t2 (by omega) (by omega)]
                    · simp only [if_neg h29]
                      rw [ih m t2 (by omega) (by omega)]
                · simp only [if_neg hd]
                  cases t2 with
                  | nil =>
                    rw [ih m [b1, b2] (by simp; omega) (by simp; omega)]
                  | cons b3 t3 =>
                    simp only [List.length_cons] at h1 h2
                    by_cases he : accept4 b0 b1 ∧ contB b2 ∧ contB b3
                    · simp only [if_pos he]
                      rw [ih m t3 (by omega) (by omega)]
                    · simp only [if_neg he]
                      rw [ih m (b1 :: b2 :: b3 :: t3) (by simp; omega) (by simp; omega)]

theorem encodeStringBytesF_eq (fuel : Nat) (l : Bytes) (h : l.length ≤ fuel) :
    encodeStringBytesF fuel l = encodeStringBytes l :=
  encodeStringBytesF_congr fuel l.length l h (Nat.le_refl _)

/-! ### One-step unfolding of the wrappers -/

theorem utf8Coerce_eqF (fuel : Nat) (l : Bytes) (h : l.length ≤ fuel) :
    utf8Coerce l = utf8CoerceF fuel l :=
  (utf8CoerceF_congr fuel l.length l h (Nat.le_refl _)).symm

theorem encodeStringBytes_eqF (fuel : Nat) (l : Bytes) (h : l.length ≤ fuel) :
    encodeStringBytes l = encodeStringBytesF fuel l :=
  (encodeStringBytesF_congr fuel l.length l h (Nat.le_refl _)).symm

theorem hexVal_hexDigit : ∀ x, x < 16 → hexVal (hexDigit x) = some x := by decide

/-- A valid byte string is left unchanged by Go's U+FFFD coercion
(fuel-level statement). -/
theorem utf8ValidF_coerceF : ∀ fuel l, utf8ValidF fuel l = true → utf8CoerceF fuel l = l := by
  intro fuel
  induction fuel with
  | zero =>
    intro l hv
    cases l with
    | nil => rfl
    | cons b t => simp [utf8ValidF] at hv
  | succ n ih =>
    intro l hv
    cases l with
    | nil => rfl
    | cons b0 t =>
      simp only [utf8ValidF, utf8CoerceF] at hv ⊢
      by_cases hb : b0 < 0x80
      · simp only [if_pos hb] at hv ⊢
        rw [ih t hv]
      · simp only [if_neg hb] at hv ⊢
        cases t with
        | nil => simp at hv
        | cons b1 t1 =>
          by_cases hc : 0xC2 ≤ b0 ∧ b0 ≤ 0xDF ∧ contB b1
          · simp only [if_pos hc] at hv ⊢
            rw [ih t1 hv]
          · simp only [if_neg hc] at hv ⊢
            cases t1 with
            | nil => simp at hv
            | cons b2 t2 =>
              by_cases hd : accept3 b0 b1 ∧ contB b2
              · simp only [if_pos hd] at hv ⊢
                rw [ih t2 hv]
              · simp only [if_neg hd] at hv ⊢
                cases t2 with
                | nil => simp at hv
                | cons b3 t3 =>
                  by_cases he : accept4 b0 b1 ∧ contB b2 ∧ contB b3
                  · simp only [if_pos he] at hv ⊢
                    rw [ih t3 hv]
                  · simp [if_neg he] at hv

theorem encodeStringBytesF_nil (fuel : Nat) : encodeStringBytesF fuel [] = [] := by
  cases fuel <;> rfl

theorem utf8CoerceF_nil (fuel : Nat) : utf8CoerceF fuel [] = [] := by
  cases fuel <;> rfl

theorem utf8ValidF_nil (fuel : Nat) : utf8ValidF fuel [] = true := by
  cases fuel <;> rfl

theorem encodeRuneGo_fffd : encodeRuneGo 0xFFFD = [0xEF, 0xBF, 0xBD] := rfl

theorem encodeRuneGo_2028 : encodeRuneGo 0x2028 = [0xE2, 0x80, 0xA8] := rfl

theorem encodeRuneGo_2029 : encodeRuneGo 0x2029 = [0xE2, 0x80, 0xA9] := rfl

theorem encodeRuneGo_ascii (b : Nat) (hb : b < 0x80) : encodeRuneGo b = [b] := by
  simp [encodeRuneGo, hb]

/-- Decoding inverts encoding, producing the UTF-8-coerced original
(fuel-level statement). -/
theorem decode_encodeF : ∀ n s z m, s.length ≤ n → n + 1 ≤ m →
    jsonDecodeStringF m (encodeStringBytesF n s ++ 0x22 :: z) =
      some (utf8CoerceF n s, z) := by
  intro n
  induction n with
  | zero =>
    intro s z m hs hm
    have hnil : s = [] := List.length_eq_zero.mp (Nat.le_zero.mp hs)
    subst hnil
    cases m with
    | zero => omega
    | succ m1 =>
      simp only [encodeStringBytesF, utf8CoerceF, List.nil_append, jsonDecodeStringF]
      norm_num
  | succ n ih =>
    intro s z m hs hm
    cases s with
    | nil =>
      cases m with
      | zero => omega
      | succ m1 =>
        simp only [encodeStringBytesF, utf8CoerceF, List.nil_append, jsonDecodeStringF]
        norm_num
    | cons b0 t =>
      cases m with
      | zero => omega
      | succ m1 =>
      simp only [List.length_cons] at hs
      have hm1 : n + 1 ≤ m1 := by omega
      simp only [encodeStringBytesF, utf8CoerceF]
      by_cases hb : b0 < 0x80
      · -- ASCII byte
        simp only [if_pos hb]
        by_cases hsafe : jsonSafeByte b0
        · -- safe byte, copied verbatim
          simp only [if_pos hsafe, List.cons_append, List.nil_append]
          have hne34 : ¬ b0 = 0x22 := fun he => hsafe.2.1 he
          have hne92 : ¬ b0 = 0x5C := fun he => hsafe.2.2.1 he
          have hge : ¬ b0 < 0x20 := by have := hsafe.1; omega
          simp only [jsonDecodeStringF, if_neg hne34, decodeOne, if_neg hne92,
            if_neg hge, if_pos hb]
          rw [ih t z m1 (by omega) hm1]
          simp [dapp]
        · -- unsafe ASCII byte, escaped
          simp only [if_neg hsafe]
          by_cases h34 : b0 = 0x22
          · subst h34
            simp only [escByte, if_pos rfl, List.cons_append, List.nil_append]
            simp only [jsonDecodeStringF, decodeOne, decodeEsc]
            norm_num
            rw [ih t z m1 (by omega) hm1]
            simp [dapp]
          · by_cases h92 : b0 = 0x5C
            · subst h92
              simp only [escByte, if_pos rfl, List.cons_append, List.nil_append]
              norm_num
              simp only [jsonDecodeStringF, decodeOne, decodeEsc]
              norm_num
              rw [ih t z m1 (by omega) hm1]
              simp [dapp]
            · by_cases h10 : b0 = 0x0A
              · subst h10
                simp only [escByte, List.cons_append, List.nil_append]
                norm_num
                simp only [jsonDecodeStringF, decodeOne, decodeEsc]
                norm_num
                rw [ih t z m1 (by omega) hm1]
                simp [dapp]
              · by_cases h13 : b0 = 0x0D
                · subst h13
                  simp only [escByte, List.cons_append, List.nil_append]
                  norm_num
                  simp only [jsonDecodeStringF, decodeOne, decodeEsc]
                  norm_num
                  rw [ih t z m1 (by omega) hm1]
                  simp [dapp]
                · by_cases h9 : b0 = 0x09
                  · subst h9
                    simp only [escByte, List.cons_append, List.nil_append]
                    norm_num
                    simp only [jsonDecodeStringF, decodeOne, decodeEsc]
                    norm_num
                    rw [ih t z m1 (by omega) hm1]
                    simp [dapp]
                  · -- generic \u00XX escape
                    simp only [escByte, if_neg h34, if_neg h92, if_neg h10, if_neg h13,
                      if_neg h9, List.cons_append, List.nil_append]
                    simp only [jsonDecodeStringF, decodeOne, decodeEsc]
                    norm_num
                    simp only [decodeU, hex4]
                    rw [show hexVal 48 = some 0 from rfl,
                      hexVal_hexDigit (b0 / 16) (by omega),
                      hexVal_hexDigit (b0 % 16) (by omega)]
                    norm_num
                    rw [show (b0 / 16) * 16 + b0 % 16 = b0 by omega]
                    rw [if_neg (by omega : ¬ (0xD800 ≤ b0 ∧ b0 < 0xE000))]
                    rw [encodeRuneGo_ascii b0 hb]
                    simp only [dapp]
                    rw [ih t z m1 (by omega) hm1]
                    simp
      · -- non-ASCII byte
        simp only [if_neg hb]
        have hb92 : ¬ b0 = 0x5C := by omega
        have hb34 : ¬ b0 = 0x22 := by omega
        have hb20 : ¬ b0 < 0x20 := by omega
        cases t with
        | nil =>
          -- lone invalid byte at end of string
          simp only [fffdEsc, List.cons_append, List.nil_append]
          simp only [jsonDecodeStringF, if_neg hb92, decodeOne, decodeEsc]
          norm_num
          simp only [decodeU, hex4]
          rw [show hexVal 102 = some 15 from rfl, show hexVal 100 = some 13 from rfl]
          norm_num
          have hnil := ih [] z m1 (by simp) hm1
          rw [encodeStringBytesF_nil, List.nil_append, utf8CoerceF_nil] at hnil
          rw [hnil]
          simp [dapp, encodeRuneGo_fffd]
        | cons b1 t1 =>
          simp only [List.length_cons] at hs
          by_cases hc : 0xC2 ≤ b0 ∧ b0 ≤ 0xDF ∧ contB b1
          · -- valid 2-byte rune, copied verbatim
            simp only [if_pos hc, List.cons_append]
            simp only [jsonDecodeStringF, if_neg hb34, decodeOne, if_neg hb92,
              if_neg hb20, if_neg hb, if_pos hc]
            simp only [dapp]
            rw [ih t1 z m1 (by omega) hm1]
            simp
          · simp only [if_neg hc]
            cases t1 with
            | nil =>
              -- invalid byte followed by one byte
              simp only [fffdEsc, List.cons_append, List.nil_append, List.append_assoc]
              simp only [jsonDecodeStringF, if_neg hb92, decodeOne, decodeEsc]
              norm_num
              simp only [decodeU, hex4]
              rw [show hexVal 102 = some 15 from rfl, show hexVal 100 = some 13 from rfl]
              norm_num
              simp only [dapp]
              rw [ih [b1] z m1 (by simp only [List.length_nil, List.length_cons] at hs ⊢; omega) hm1]
              simp [encodeRuneGo_fffd]
            | cons b2 t2 =>
              simp only [List.length_cons] at hs
              by_cases hd : accept3 b0 b1 ∧ contB b2
              · -- valid 3-byte rune
                by_cases h28 : rune3 b0 b1 b2 = 0x2028
                · -- U+2028, escaped via the codepoint escape
                  simp only [if_pos hd, if_pos h28, List.cons_append, List.nil_append]
                  simp only [jsonDecodeStringF, decodeOne, decodeEsc]
                  norm_num
                  simp only [decodeU, hex4]
                  rw [show hexVal 50 = some 2 from rfl, show hexVal 48 = some 0 from rfl,
                    show hexVal 56 = some 8 from rfl]
                  norm_num
                  simp only [dapp]
                  rw [ih t2 z m1 (by omega) hm1]
                  have hbytes : b0 = 226 ∧ b1 = 128 ∧ b2 = 168 := by
                    rcases hd with ⟨h3, hcb⟩
                    unfold rune3 at h28
                    unfold contB at hcb
                    rcases h3 with ⟨he0, h1a, h1b⟩ | ⟨ha, hb2, ⟨hc1, hc2⟩⟩ |
                      ⟨hed, h1a, h1b⟩ | ⟨hee, hef, ⟨hc1, hc2⟩⟩ <;> omega
                  rw [hbytes.1, hbytes.2.1, hbytes.2.2]
                  simp [encodeRuneGo_2028]
                · by_cases h29 : rune3 b0 b1 b2 = 0x2029
                  · -- U+2029, escaped via the codepoint escape
                    simp only [if_pos hd, if_neg h28, if_pos h29, List.cons_append,
                      List.nil_append]
                    simp only [jsonDecodeStringF, decodeOne, decodeEsc]
                    norm_num
                    simp only [decodeU, hex4]
                    rw [show hexVal 50 = some 2 from rfl, show hexVal 48 = some 0 from rfl,
                      show hexVal 57 = some 9 from rfl]
                    norm_num
                    simp only [dapp]
                    rw [ih t2 z m1 (by omega) hm1]
                    have hbytes : b0 = 226 ∧ b1 = 128 ∧ b2 = 169 := by
                      rcases hd with ⟨h3, hcb⟩
                      unfold rune3 at h29
                      unfold contB at hcb
                      rcases h3 with ⟨he0, h1a, h1b⟩ | ⟨ha, hb2, ⟨hc1, hc2⟩⟩ |
                        ⟨hed, h1a, h1b⟩ | ⟨hee, hef, ⟨hc1, hc2⟩⟩ <;> omega
                    rw [hbytes.1, hbytes.2.1, hbytes.2.2]
                    simp [encodeRuneGo_2029]
                  · -- other 3-byte rune, copied verbatim
                    simp only [if_pos hd, if_neg h28, if_neg h29, List.cons_append]
                    simp only [jsonDecodeStringF, if_neg hb34, decodeOne, if_neg hb92,
                      if_neg hb20, if_neg hb, if_neg hc, if_pos hd]
                    simp only [dapp]
                    rw [ih t2 z m1 (by omega) hm1]
                    simp
              · simp only [if_neg hd]
                cases t2 with
                | nil =>
                  -- invalid byte followed by two bytes
                  simp only [fffdEsc, List.cons_append, List.nil_append, List.append_assoc]
                  simp only [jsonDecodeStringF, if_neg hb92, decodeOne, decodeEsc]
                  norm_num
                  simp only [decodeU, hex4]
                  rw [show hexVal 102 = some 15 from rfl, show hexVal 100 = some 13 from rfl]
                  norm_num
                  simp only [dapp]
                  rw [ih [b1, b2] z m1 (by simp only [List.length_nil, List.length_cons] at hs ⊢; omega) hm1]
                  simp [encodeRuneGo_fffd]
                | cons b3 t3 =>
                  simp only [List.length_cons] at hs
                  by_cases he : accept4 b0 b1 ∧ contB b2 ∧ contB b3
                  · -- valid 4-byte rune, copied verbatim
                    simp only [if_pos he, List.cons_append]
                    simp only [jsonDecodeStringF, if_neg hb34, decodeOne, if_neg hb92,
                      if_neg hb20, if_neg hb, if_neg hc, if_neg hd, if_pos he]
                    simp only [dapp]
                    rw [ih t3 z m1 (by omega) hm1]
                    simp
                  · -- invalid byte in a long stream
                    simp only [if_neg he, fffdEsc, List.cons_append, List.nil_append,
                      List.append_assoc]
                    simp only [jsonDecodeStringF, if_neg hb92, decodeOne, decodeEsc]
                    norm_num
                    simp only [decodeU, hex4]
                    rw [show hexVal 102 = some 15 from rfl,
                      show hexVal 100 = some 13 from rfl]
                    norm_num
                    simp only [dapp]
                    rw [ih (b1 :: b2 :: b3 :: t3) z m1 (by simp only [List.length_cons] at hs ⊢; omega) hm1]
                    simp [encodeRuneGo_fffd]

/-- The encoder never shrinks its input (fuel-level statement). -/
theorem length_le_encodeF : ∀ n s, s.length ≤ n → s.length ≤ (encodeStringBytesF n s).length := by
  intro n
  induction n with
  | zero =>
    intro s hs
    have hnil : s = [] := List.length_eq_zero.mp (Nat.le_zero.mp hs)
    subst hnil
    simp
  | succ n ih =>
    intro s hs
    cases s with
    | nil => simp
    | cons b0 t =>
      simp only [List.length_cons] at hs
      simp only [encodeStringBytesF, List.length_cons]
      by_cases hb : b0 < 0x80
      · simp only [if_pos hb, List.length_append]
        have h1 : 1 ≤ (if jsonSafeByte b0 then [b0] else escByte b0).length := by
          by_cases hsafe : jsonSafeByte b0
          · simp [hsafe]
          · simp only [if_neg hsafe, escByte]
            by_cases h34 : b0 = 0x22
            · simp [h34]
            · by_cases h92 : b0 = 0x5C
              · simp [h34, h92]
              · by_cases h10 : b0 = 0x0A
                · simp [h34, h92, h10]
                · by_cases h13 : b0 = 0x0D
                  · simp [h34, h92, h10, h13]
                  · by_cases h9 : b0 = 0x09
                    · simp [h34, h92, h10, h13, h9]
                    · simp [h34, h92, h10, h13, h9]
        have h2 := ih t (by omega)
        omega
      · simp only [if_neg hb]
        cases t with
        | nil => simp [fffdEsc]
        | cons b1 t1 =>
          simp only [List.length_cons] at hs
          by_cases hc : 0xC2 ≤ b0 ∧ b0 ≤ 0xDF ∧ contB b1
          · simp only [if_pos hc, List.length_cons]
            have h2 := ih t1 (by omega)
            omega
          · simp only [if_neg hc]
            cases t1 with
            | nil =>
              have h2 := ih [b1] (by simp; omega)
              simp only [fffdEsc, List.length_append, List.length_cons] at h2 ⊢
              simp at h2 ⊢
              omega
            | cons b2 t2 =>
              simp only [List.length_cons] at hs
              by_cases hd : accept3 b0 b1 ∧ contB b2
              · by_cases h28 : rune3 b0 b1 b2 = 0x2028
                · simp only [if_pos hd, if_pos h28, List.length_append, List.length_cons]
                  have h2 := ih t2 (by omega)
                  simp
                  omega
                · by_cases h29 : rune3 b0 b1 b2 = 0x2029
                  · simp only [if_pos hd, if_neg h28, if_pos h29, List.length_append,
                      List.length_cons]
                    have h2 := ih t2 (by omega)
                    simp
                    omega
                  · simp only [if_pos hd, if_neg h28, if_neg h29, List.length_cons]
                    have h2 := ih t2 (by omega)
                    omega
              · simp only [if_neg hd]
                cases t2 with
                | nil =>
                  have h2 := ih [b1, b2] (by simp; omega)
                  simp only [fffdEsc, List.length_append, List.length_cons] at h2 ⊢
                  simp at h2 ⊢
                  omega
                | cons b3 t3 =>
                  simp only [List.length_cons] at hs
                  by_cases he : accept4 b0 b1 ∧ contB b2 ∧ contB b3
                  · simp only [if_pos he, List.length_cons]
                    have h2 := ih t3 (by omega)
                    omega
                  · simp only [if_neg he, fffdEsc, List.length_append, List.length_cons]
                    have h2 := ih (b1 :: b2 :: b3 :: t3)
                      (by simp only [List.length_cons]; omega)
                    simp only [List.length_cons] at h2
                    simp
                    omega

/-- Wrapper-level string round-trip: decoding the encoder's output (through
the closing quote) recovers the UTF-8-coerced input and the trailing bytes. -/
theorem jsonDecodeString_encode (s z : Bytes) :
    jsonDecodeString (encodeStringBytes s ++ 0x22 :: z) = some (utf8Coerce s, z) := by
  unfold jsonDecodeString encodeStringBytes utf8Coerce
  apply decode_encodeF s.length s z _ (Nat.le_refl _)
  have := length_le_encodeF s.length s (Nat.le_refl _)
  simp only [List.length_append, List.length_cons]
  omega

/-- Keys and values after Go's U+FFFD coercion (what survives a
marshal/unmarshal round trip). -/
def coercePairs (s : SecretStore) : SecretStore :=
  s.map (fun p => (utf8Coerce p.1, utf8Coerce p.2))

/-- Assign a list of parsed pairs into a map, in order (`m[k] = v`). -/
def assignAll (acc : SecretStore) (ps : SecretStore) : SecretStore :=
  ps.foldl (fun a p => mapSet a p.1 p.2) acc

theorem skipWS_cons_ne (c : Nat) (t : Bytes)
    (h : ¬(c = 0x20 ∨ c = 0x09 ∨ c = 0x0A ∨ c = 0x0D)) : skipWS (c :: t) = c :: t := by
  simp [skipWS, h]

theorem parsePairsF_marshal : ∀ ps fuel acc, ps ≠ [] → ps.length + 1 ≤ fuel →
    parsePairsF fuel (marshalPairs ps ++ [0x7D]) acc =
      some (assignAll acc (coercePairs ps)) := by
  intro ps
  induction ps with
  | nil => intro fuel acc h; exact absurd rfl h
  | cons p rest ih =>
    intro fuel acc _ hf
    cases fuel with
    | zero => simp at hf
    | succ f =>
    obtain ⟨k, v⟩ := p
    cases rest with
    | nil =>
      simp only [marshalPairs, marshalPair, parsePairsF, List.cons_append,
        List.append_assoc, List.singleton_append, List.nil_append]
      rw [skipWS_cons_ne 0x22 _ (by norm_num)]
      norm_num
      rw [jsonDecodeString_encode]
      norm_num
      rw [skipWS_cons_ne 0x3A _ (by norm_num)]
      norm_num
      rw [skipWS_cons_ne 0x22 _ (by norm_num)]
      norm_num
      rw [jsonDecodeString_encode]
      norm_num
      rw [skipWS_cons_ne 0x7D _ (by norm_num)]
      norm_num
      simp [skipWS, assignAll, coercePairs]
    | cons q rest2 =>
      simp only [marshalPairs, marshalPair, parsePairsF, List.cons_append,
        List.append_assoc, List.singleton_append, List.nil_append]
      rw [skipWS_cons_ne 0x22 _ (by norm_num)]
      norm_num
      rw [jsonDecodeString_encode]
      norm_num
      rw [skipWS_cons_ne 0x3A _ (by norm_num)]
      norm_num
      rw [skipWS_cons_ne 0x22 _ (by norm_num)]
      norm_num
      rw [jsonDecodeString_encode]
      norm_num
      rw [skipWS_cons_ne 0x2C _ (by norm_num)]
      norm_num
      rw [ih f (mapSet acc (utf8Coerce k) (utf8Coerce v)) (by simp)
        (by simp only [List.length_cons] at hf ⊢; omega)]
      simp [assignAll, coercePairs]

theorem length_le_marshalPairs : ∀ ps : SecretStore, ps.length ≤ (marshalPairs ps).length := by
  intro ps
  induction ps with
  | nil => simp [marshalPairs]
  | cons p rest ih =>
    cases rest with
    | nil => simp [marshalPairs, marshalPair]
    | cons q rest2 =>
      simp only [marshalPairs, marshalPair, List.length_append, List.length_cons] at ih ⊢
      omega

theorem marshalPairs_cons_eq (p : Bytes × Bytes) (rest : SecretStore) :
    ∃ w, marshalPairs (p :: rest) = 0x22 :: w := by
  cases rest with
  | nil =>
    refine ⟨encodeStringBytes p.1 ++ (0x22 :: 0x3A :: 0x22 :: encodeStringBytes p.2 ++ [0x22]), ?_⟩
    simp [marshalPairs, marshalPair]
  | cons q rest2 =>
    refine ⟨encodeStringBytes p.1 ++ (0x22 :: 0x3A :: 0x22 :: encodeStringBytes p.2 ++ [0x22]) ++
      0x2C :: marshalPairs (q :: rest2), ?_⟩
    simp [marshalPairs, marshalPair]

/-- Unmarshalling marshalled output always succeeds and yields the pairs
with keys and values coerced to valid UTF-8, assigned in order. -/
theorem jsonUnmarshal_marshal (s : SecretStore) :
    jsonUnmarshal (jsonMarshal s) = some (assignAll [] (coercePairs s)) := by
  cases s with
  | nil => rfl
  | cons p rest =>
    unfold jsonMarshal jsonUnmarshal
    simp only [List.cons_append]
    rw [skipWS_cons_ne 0x7B _ (by norm_num)]
    norm_num
    obtain ⟨w, hw⟩ := marshalPairs_cons_eq p rest
    have hw2 : marshalPairs (p :: rest) ++ [0x7D] = 0x22 :: (w ++ [0x7D]) := by
      rw [hw]; simp
    rw [hw2, skipWS_cons_ne 0x22 _ (by norm_num), ← hw2]
    norm_num
    rw [parsePairsF_marshal (p :: rest) _ [] (by simp)]
    · rw [hw2]
      norm_num
    · have hb := length_le_marshalPairs (p :: rest)
      simp only [List.length_cons] at hb ⊢
      omega

/-! ### Facts about `lexLt` and the canonical sorted representation -/

theorem lexLt_irrefl : ∀ a : Bytes, lexLt a a = false := by
  intro a
  induction a with
  | nil => rfl
  | cons x t ih => simp [lexLt, ih]

theorem lexLt_asymm : ∀ a b : Bytes, lexLt a b = true → lexLt b a = false := by
  intro a
  induction a with
  | nil =>
    intro b h
    cases b with
    | nil => simp [lexLt] at h
    | cons y bt => simp [lexLt]
  | cons x t ih =>
    intro b h
    cases b with
    | nil => simp [lexLt] at h
    | cons y bt =>
      simp only [lexLt] at h ⊢
      by_cases hxy : x < y
      · have h1 : ¬ y < x := by omega
        simp [h1, hxy]
      · by_cases hyx : y < x
        · simp [hxy, hyx] at h
        · simp only [if_neg hxy, if_neg hyx] at h
          simp only [if_neg hyx, if_neg hxy]
          exact ih bt h

theorem lexLt_ne (a b : Bytes) (h : lexLt a b = true) : a ≠ b := by
  intro he
  subst he
  rw [lexLt_irrefl] at h
  simp at h

/-- Assigning a key greater than everything in the map appends it. -/
theorem mapSet_append_gt : ∀ (acc : SecretStore) (k v : Bytes),
    (∀ p ∈ acc, lexLt p.1 k = true) → mapSet acc k v = acc ++ [(k, v)] := by
  intro acc
  induction acc with
  | nil => intro k v _; rfl
  | cons q t ih =>
    intro k v h
    obtain ⟨k1, v1⟩ := q
    have h1 : lexLt k1 k = true := h (k1, v1) (List.mem_cons_self _ _)
    have hne : ¬ k = k1 := fun he => (lexLt_ne k1 k h1) he.symm
    have hnlt : ¬ lexLt k k1 = true := by
      rw [lexLt_asymm k1 k h1]
      exact Bool.false_ne_true
    simp only [mapSet, if_neg hne, if_neg hnlt]
    rw [ih k v (fun p hp => h p (List.mem_cons_of_mem _ hp))]
    simp

/-- Assigning strictly ascending pairs into a strictly smaller sorted map
just appends them. -/
theorem assignAll_sorted : ∀ (ps acc : SecretStore), StoreWF (acc ++ ps) →
    assignAll acc ps = acc ++ ps := by
  intro ps
  induction ps with
  | nil => intro acc _; simp [assignAll]
  | cons p rest ih =>
    intro acc hWF
    obtain ⟨k, v⟩ := p
    have hgt : ∀ q ∈ acc, lexLt q.1 k = true := by
      intro q hq
      unfold StoreWF at hWF
      rw [List.pairwise_append] at hWF
      exact hWF.2.2 q hq (k, v) (List.mem_cons_self _ _)
    have hstep : mapSet acc k v = acc ++ [(k, v)] := mapSet_append_gt acc k v hgt
    show assignAll (mapSet acc k v) rest = acc ++ (k, v) :: rest
    rw [hstep, ih (acc ++ [(k, v)]) (by rw [← List.append_cons]; exact hWF)]
    simp

/-- The full `json.Unmarshal` / `json.Marshal` round trip on a canonical
mapping whose keys and values are valid UTF-8. -/
theorem jsonUnmarshal_jsonMarshal (s : SecretStore) (hWF : StoreWF s)
    (hv : ∀ p ∈ s, utf8Valid p.1 = true ∧ utf8Valid p.2 = true) :
    jsonUnmarshal (jsonMarshal s) = some s := by
  rw [jsonUnmarshal_marshal]
  have hco : coercePairs s = s := by
    unfold coercePairs
    have hs2 : ∀ p ∈ s, (utf8Coerce p.1, utf8Coerce p.2) = p := by
      intro p hp
      obtain ⟨k, v⟩ := p
      have h1 := utf8ValidF_coerceF k.length k (hv (k, v) hp).1
      have h2 := utf8ValidF_coerceF v.length v (hv (k, v) hp).2
      simp [utf8Coerce, h1, h2]
    calc s.map (fun p => (utf8Coerce p.1, utf8Coerce p.2)) = s.map id :=
          List.map_congr_left hs2
      _ = s := List.map_id s
  rw [hco, assignAll_sorted s [] (by simpa using hWF)]
  simp

/-! ### Error taxonomy

One constructor per error path in the Go sources (spec §7): the
`chacha20poly1305.NewX` key-size error, the explicit "invalid ciphertext:
too short" error, `json.Unmarshal` failures, AEAD authentication failure,
the "invalid key file length" configuration error, I/O and input errors,
and the PIN errors. -/
inductive Err where
  | badKeyLength
  | formatTooShort
  | formatBadJson
  | authFailed
  | configError
  | randFailed
  | ioWriteFailed
  | noInput
  | incorrectPIN
  | tooManyAttempts
  | pinAlreadySet
  deriving DecidableEq

/-! ### AEAD model (`golang.org/x/crypto/chacha20poly1305`, `NewX`)

The library is external to the repository, so it is modelled at the level
of its interface contract: `Seal` turns a plaintext into a same-length
ciphertext by xoring a keystream determined by key and nonce, and appends
an authentication tag determined by key, nonce and ciphertext; `Open`
recomputes and compares the tag, failing closed on any mismatch, then
inverts the xor.  The keystream and tag are concrete stand-in functions
(not the real ChaCha20/Poly1305 permutation); the tag here is 32 bytes and
injective in the key, reflecting the ideal-MAC property that a wrong key
fails authentication.  The 24-byte extended nonce size is the library's
`NonceSizeX`. -/

/-- `chacha20poly1305.NonceSizeX`. -/
def NonceSizeX : Nat := 24

/-- The model's tag length (`Overhead`; the real library uses a 16-byte
Poly1305 tag, the model uses a 32-byte key-injective tag). -/
def Overhead : Nat := 32

/-- Byte sum, used by the keystream and tag stand-ins. -/
def sumB (l : Bytes) : Nat := l.foldl (fun a b => a + b) 0

/-- Stand-in keystream: `n` bytes determined by key and nonce. -/
def keystream (key nonce : Bytes) (n : Nat) : Bytes :=
  (List.range n).map (fun i => (i * 131 + sumB key * 31 + sumB nonce * 7 + 11) % 256)

/-- Pointwise xor of two byte strings. -/
def xorBytes (a b : Bytes) : Bytes := List.zipWith (fun x y => x ^^^ y) a b

/-- Stand-in MAC: 32 bytes determined by key, nonce and ciphertext,
injective in the key for byte-valued keys. -/
def tagBytes (key nonce ct : Bytes) : Bytes :=
  key.map (fun b => (b + sumB nonce * 5 + sumB ct * 3 + ct.length) % 256)

/-- Model of `aead.Seal(nil, nonce, plaintext, nil)`. -/
def xchachaSeal (key nonce pt : Bytes) : Bytes :=
  xorBytes pt (keystream key nonce pt.length) ++
    tagBytes key nonce (xorBytes pt (keystream key nonce pt.length))

/-- Model of `aead.Open(nil, nonce, ciphertext, nil)`: splits off the tag,
compares it in constant time, and decrypts only on a match. -/
def xchachaOpen (key nonce data : Bytes) : Option Bytes :=
  if data.length < Overhead then none
  else if tagBytes key nonce (data.take (data.length - Overhead)) =
      data.drop (data.length - Overhead) then
    some (xorBytes (data.take (data.length - Overhead))
      (keystream key nonce (data.take (data.length - Overhead)).length))
  else none

theorem length_keystream (key nonce : Bytes) (n : Nat) :
    (keystream key nonce n).length = n := by
  simp [keystream]

theorem length_xorBytes_keystream (key nonce pt : Bytes) :
    (xorBytes pt (keystream key nonce pt.length)).length = pt.length := by
  simp [xorBytes, length_keystream]

theorem xorBytes_cancel : ∀ pt ks : Bytes, ks.length = pt.length →
    xorBytes (xorBytes pt ks) ks = pt := by
  intro pt
  induction pt with
  | nil => intro ks _; simp [xorBytes]
  | cons x t ih =>
    intro ks hl
    cases ks with
    | nil => simp at hl
    | cons k kt =>
      simp only [List.length_cons] at hl
      simp only [xorBytes, List.zipWith_cons_cons]
      rw [show (fun x y => x ^^^ y) x k ^^^ k = x by
        rw [Nat.xor_assoc, Nat.xor_self, Nat.xor_zero]]
      have := ih kt (by omega)
      simp only [xorBytes] at this
      rw [this]

/-- Opening what was sealed under the same 32-byte key and nonce succeeds
and recovers the plaintext. -/
theorem xchachaOpen_seal (key nonce pt : Bytes) (hk : key.length = 32) :
    xchachaOpen key nonce (xchachaSeal key nonce pt) = some pt := by
  unfold xchachaSeal xchachaOpen
  have hct : (xorBytes pt (keystream key nonce pt.length)).length = pt.length :=
    length_xorBytes_keystream key nonce pt
  have htag : (tagBytes key nonce (xorBytes pt (keystream key nonce pt.length))).length =
      32 := by simp [tagBytes, hk]
  have hlen : (xorBytes pt (keystream key nonce pt.length) ++
      tagBytes key nonce (xorBytes pt (keystream key nonce pt.length))).length =
      pt.length + 32 := by
    simp only [List.length_append, hct, htag]
  simp only [hlen]
  rw [if_neg (by unfold Overhead; omega)]
  have hsub : pt.length + 32 - Overhead = pt.length := by unfold Overhead; omega
  rw [hsub]
  rw [List.take_left' hct, List.drop_left' hct]
  rw [if_pos rfl]
  rw [hct]
  rw [xorBytes_cancel pt (keystream key nonce pt.length) (length_keystream key nonce pt.length)]

/-- The reserved sentinel key `__meta__pin_hash` (`pinKey` in sec.go). -/
def pinKey : Bytes := [95, 95, 109, 101, 116, 97, 95, 95, 112, 105, 110, 95, 104, 97, 115, 104]

namespace Sec

/-- Model of sec.go `encryptStore`: marshal the store, seal it under a
fresh random 24-byte nonce (passed explicitly here), and prepend the
nonce.  The only failure path is `chacha20poly1305.NewX` rejecting a key
that is not 32 bytes. -/
def encryptStore (store : SecretStore) (key : Bytes) (nonce : Bytes) : Except Err Bytes :=
  if key.length ≠ 32 then Except.error Err.badKeyLength
  else Except.ok (nonce ++ xchachaSeal key nonce (jsonMarshal store))

/-- Model of sec.go `decryptStore`: reject a bad key length
(`chacha20poly1305.NewX`), then an input shorter than the nonce
(`invalid ciphertext: too short`), then split nonce and ciphertext, open,
and unmarshal. -/
def decryptStore (data : Bytes) (key : Bytes) : Except Err SecretStore :=
  if key.length ≠ 32 then Except.error Err.badKeyLength
  else if data.length < NonceSizeX then Except.error Err.formatTooShort
  else
    match xchachaOpen key (data.take NonceSizeX) (data.drop NonceSizeX) with
    | none => Except.error Err.authFailed
    | some pt =>
      match jsonUnmarshal pt with
      | none => Except.error Err.formatBadJson
      | some store => Except.ok store

/-- Decrypting an encryption under the same key always succeeds, yielding
the store with keys and values coerced to valid UTF-8 (the marshal step's
U+FFFD replacement). -/
theorem decryptStore_encryptStore (store : SecretStore) (key nonce : Bytes)
    (hk : key.length = 32) (hn : nonce.length = 24) :
    decryptStore (nonce ++ xchachaSeal key nonce (jsonMarshal store)) key =
      Except.ok (assignAll [] (coercePairs store)) := by
  unfold decryptStore
  rw [if_neg (by omega)]
  have hlen : (nonce ++ xchachaSeal key nonce (jsonMarshal store)).length =
      24 + (xchachaSeal key nonce (jsonMarshal store)).length := by
    simp [hn]
  rw [if_neg (by rw [hlen]; unfold NonceSizeX; omega)]
  have htake : (nonce ++ xchachaSeal key nonce (jsonMarshal store)).take NonceSizeX = nonce :=
    List.take_left' (by rw [hn]; rfl)
  have hdrop : (nonce ++ xchachaSeal key nonce (jsonMarshal store)).drop NonceSizeX =
      xchachaSeal key nonce (jsonMarshal store) :=
    List.drop_left' (by rw [hn]; rfl)
  rw [htake, hdrop, xchachaOpen_seal key nonce (jsonMarshal store) hk]
  simp only [jsonUnmarshal_marshal store]

/-- The amended round trip: on a canonical store whose keys and values are
valid UTF-8, decrypt of encrypt is the identity. -/
theorem decryptStore_encryptStore_valid (store : SecretStore) (key nonce : Bytes)
    (hk : key.length = 32) (hn : nonce.length = 24) (hWF : StoreWF store)
    (hv : ∀ p ∈ store, utf8Valid p.1 = true ∧ utf8Valid p.2 = true) :
    decryptStore (nonce ++ xchachaSeal key nonce (jsonMarshal store)) key =
      Except.ok store := by
  unfold decryptStore
  rw [if_neg (by omega)]
  have hlen : (nonce ++ xchachaSeal key nonce (jsonMarshal store)).length =
      24 + (xchachaSeal key nonce (jsonMarshal store)).length := by
    simp [hn]
  rw [if_neg (by rw [hlen]; unfold NonceSizeX; omega)]
  have htake : (nonce ++ xchachaSeal key nonce (jsonMarshal store)).take NonceSizeX = nonce :=
    List.take_left' (by rw [hn]; rfl)
  have hdrop : (nonce ++ xchachaSeal key nonce (jsonMarshal store)).drop NonceSizeX =
      xchachaSeal key nonce (jsonMarshal store) :=
    List.drop_left' (by rw [hn]; rfl)
  rw [htake, hdrop, xchachaOpen_seal key nonce (jsonMarshal store) hk]
  simp only [jsonUnmarshal_jsonMarshal store hWF hv]

end Sec

/-- C1 (amended): for every canonical secret mapping M whose keys and
values are valid UTF-8, and every 32-byte key K and 24-byte nonce,
decrypting the result of encrypting M under K with the same K returns M. -/
theorem c1_roundtrip_amended (store : SecretStore) (key nonce c : Bytes)
    (hk : key.length = 32) (hn : nonce.length = 24) (hWF : StoreWF store)
    (hv : ∀ p ∈ store, utf8Valid p.1 = true ∧ utf8Valid p.2 = true)
    (henc : Sec.encryptStore store key nonce = Except.ok c) :
    Sec.decryptStore c key = Except.ok store := by
  unfold Sec.encryptStore at henc
  rw [if_neg (by omega)] at henc
  have hc : c = nonce ++ xchachaSeal key nonce (jsonMarshal store) :=
    (Except.ok.inj henc).symm
  subst hc
  exact Sec.decryptStore_encryptStore_valid store key nonce hk hn hWF hv

/-- C1 witness: a concrete round trip through encrypt and decrypt. -/
theorem c1_roundtrip_witness :
    Sec.decryptStore (List.replicate 24 1 ++ xchachaSeal (List.replicate 32 0)
      (List.replicate 24 1) (jsonMarshal [([107], [118])])) (List.replicate 32 0) =
      Except.ok [([107], [118])] :=
  c1_roundtrip_amended [([107], [118])] (List.replicate 32 0) (List.replicate 24 1) _
    (by decide) (by decide) (by decide) (by decide) rfl

/-- C1 counterexample: the round trip is not the identity on every mapping.
For M = {"k": 0xFF} (a value that is not valid UTF-8), `json.Marshal`
inside encrypt coerces the invalid byte to U+FFFD, so decrypt returns
{"k": EF BF BD} instead of M. -/
theorem c1_roundtrip_counterexample :
    Sec.encryptStore [([107], [255])] (List.replicate 32 0) (List.replicate 24 1) =
      Except.ok (List.replicate 24 1 ++ xchachaSeal (List.replicate 32 0)
        (List.replicate 24 1) (jsonMarshal [([107], [255])])) ∧
    Sec.decryptStore (List.replicate 24 1 ++ xchachaSeal (List.replicate 32 0)
      (List.replicate 24 1) (jsonMarshal [([107], [255])])) (List.replicate 32 0) =
      Except.ok [([107], [239, 191, 189])] ∧
    ([([107], [239, 191, 189])] : SecretStore) ≠ [([107], [255])] := by
  refine ⟨rfl, ?_, by decide⟩
  rw [Sec.decryptStore_encryptStore [([107], [255])] (List.replicate 32 0)
    (List.replicate 24 1) (by decide) (by decide)]
  exact congrArg Except.ok (by decide)

/-- The model MAC is injective in the key (for byte-valued keys of equal
length): authenticating under a different key always fails. -/
theorem tagBytes_inj : ∀ (k1 k2 nonce ct : Bytes), k1.length = k2.length →
    (∀ b ∈ k1, b < 256) → (∀ b ∈ k2, b < 256) →
    tagBytes k1 nonce ct = tagBytes k2 nonce ct → k1 = k2 := by
  intro k1
  induction k1 with
  | nil =>
    intro k2 nonce ct hl _ _ _
    cases k2 with
    | nil => rfl
    | cons b2 t2 => simp at hl
  | cons b1 t1 ih =>
    intro k2 nonce ct hl hb1 hb2 he
    cases k2 with
    | nil => simp at hl
    | cons b2 t2 =>
      simp only [List.length_cons] at hl
      simp only [tagBytes, List.map_cons, List.cons.injEq] at he
      have h1 : b1 < 256 := hb1 b1 (List.mem_cons_self _ _)
      have h2 : b2 < 256 := hb2 b2 (List.mem_cons_self _ _)
      have hbe : b1 = b2 := by omega
      subst hbe
      have ht : t1 = t2 := by
        apply ih t2 nonce ct (by omega)
          (fun b hb => hb1 b (List.mem_cons_of_mem _ hb))
          (fun b hb => hb2 b (List.mem_cons_of_mem _ hb))
        simp only [tagBytes]
        exact he.2
      rw [ht]

/-- Opening under a different byte-valued 32-byte key always fails in the
model (ideal-MAC property). -/
theorem xchachaOpen_seal_wrong_key (k1 k2 nonce pt : Bytes)
    (hk1 : k1.length = 32) (hk2 : k2.length = 32)
    (hb1 : ∀ b ∈ k1, b < 256) (hb2 : ∀ b ∈ k2, b < 256) (hne : k1 ≠ k2) :
    xchachaOpen k2 nonce (xchachaSeal k1 nonce pt) = none := by
  unfold xchachaSeal xchachaOpen
  have hct : (xorBytes pt (keystream k1 nonce pt.length)).length = pt.length :=
    length_xorBytes_keystream k1 nonce pt
  have htag : (tagBytes k1 nonce (xorBytes pt (keystream k1 nonce pt.length))).length =
      32 := by simp [tagBytes, hk1]
  have hlen : (xorBytes pt (keystream k1 nonce pt.length) ++
      tagBytes k1 nonce (xorBytes pt (keystream k1 nonce pt.length))).length =
      pt.length + 32 := by
    simp only [List.length_append, hct, htag]
  simp only [hlen]
  rw [if_neg (by unfold Overhead; omega)]
  have hsub : pt.length + 32 - Overhead = pt.length := by unfold Overhead; omega
  rw [hsub]
  rw [List.take_left' hct, List.drop_left' hct]
  rw [if_neg]
  intro he
  exact hne (tagBytes_inj k2 k1 nonce _ (by omega) hb2 hb1 he).symm

/-- C7 components: length check, authentication check, distinguishability,
and the wrong-key case. -/
theorem c7_decrypt_errors :
    (∀ data key : Bytes, key.length = 32 → data.length < NonceSizeX →
      Sec.decryptStore data key = Except.error Err.formatTooShort) ∧
    (∀ data key : Bytes, key.length = 32 → ¬ data.length < NonceSizeX →
      xchachaOpen key (data.take NonceSizeX) (data.drop NonceSizeX) = none →
      Sec.decryptStore data key = Except.error Err.authFailed) ∧
    Err.formatTooShort ≠ Err.authFailed ∧
    (∀ (store : SecretStore) (k1 k2 nonce c : Bytes),
      k1.length = 32 → k2.length = 32 → (∀ b ∈ k1, b < 256) → (∀ b ∈ k2, b < 256) →
      k1 ≠ k2 → nonce.length = 24 →
      Sec.encryptStore store k1 nonce = Except.ok c →
      Sec.decryptStore c k2 = Except.error Err.authFailed) := by
  refine ⟨?_, ?_, by simp, ?_⟩
  · intro data key hk hshort
    unfold Sec.decryptStore
    rw [if_neg (by omega), if_pos hshort]
  · intro data key hk hlong hopen
    unfold Sec.decryptStore
    rw [if_neg (by omega), if_neg hlong, hopen]
  · intro store k1 k2 nonce c hk1 hk2 hb1 hb2 hne hn henc
    unfold Sec.encryptStore at henc
    rw [if_neg (by omega)] at henc
    have hc : c = nonce ++ xchachaSeal k1 nonce (jsonMarshal store) :=
      (Except.ok.inj henc).symm
    subst hc
    unfold Sec.decryptStore
    rw [if_neg (by omega)]
    have hslen : (xchachaSeal k1 nonce (jsonMarshal store)).length =
        (jsonMarshal store).length + 32 := by
      unfold xchachaSeal
      simp [List.length_append, length_xorBytes_keystream, tagBytes, hk1]
    have hlen : (nonce ++ xchachaSeal k1 nonce (jsonMarshal store)).length =
        24 + ((jsonMarshal store).length + 32) := by
      simp [hn, hslen]
    rw [if_neg (by rw [hlen]; unfold NonceSizeX; omega)]
    have htake : (nonce ++ xchachaSeal k1 nonce (jsonMarshal store)).take NonceSizeX =
        nonce := List.take_left' (by rw [hn]; rfl)
    have hdrop : (nonce ++ xchachaSeal k1 nonce (jsonMarshal store)).drop NonceSizeX =
        xchachaSeal k1 nonce (jsonMarshal store) := List.drop_left' (by rw [hn]; rfl)
    rw [htake, hdrop,
      xchachaOpen_seal_wrong_key k1 k2 nonce (jsonMarshal store) hk1 hk2 hb1 hb2 hne]

/-- C7 witness: a concrete short input and a concrete wrong-key decryption. -/
theorem c7_decrypt_errors_witness :
    Sec.decryptStore [0] (List.replicate 32 0) = Except.error Err.formatTooShort ∧
    Sec.decryptStore (List.replicate 24 1 ++ xchachaSeal (List.replicate 32 0)
      (List.replicate 24 1) (jsonMarshal [])) (List.replicate 32 5) =
      Except.error Err.authFailed :=
  ⟨c7_decrypt_errors.1 [0] (List.replicate 32 0) (by decide) (by decide),
   c7_decrypt_errors.2.2.2 [] (List.replicate 32 0) (List.replicate 32 5) (List.replicate 24 1)
     _ (by decide) (by decide) (by decide) (by decide) (by decide) (by decide) rfl⟩

/-! ### Filesystem model

An association list from path to file contents and permission bits.
`writeFile` models `ioutil.WriteFile`, which opens with `O_TRUNC` and then
writes: an optional fault truncates the file after `k` bytes, modelling an
I/O error mid-write (disk full, interrupt).  As with `os.WriteFile`, the
permission argument only takes effect when the file is created. -/
abbrev FS := List (String × Bytes × Nat)

/-- Model of `ioutil.ReadFile`: `none` is the does-not-exist error. -/
def readFile : FS → String → Option Bytes
  | [], _ => none
  | (p, data, _) :: t, path => if path = p then some data else readFile t path

/-- Replace a file's contents, creating it (with `perm`) if absent. -/
def setFile : FS → String → Bytes → Nat → FS
  | [], path, data, perm => [(path, data, perm)]
  | (p, d, m) :: t, path, data, perm =>
    if p = path then (p, data, m) :: t else (p, d, m) :: setFile t path data perm

/-- Model of `ioutil.WriteFile` with a fault oracle: `some k` makes the
write fail after `k` bytes, leaving the file truncated. -/
def writeFile (fs : FS) (path : String) (data : Bytes) (perm : Nat)
    (fault : Option Nat) : Except Err Unit × FS :=
  match fault with
  | none => (Except.ok (), setFile fs path data perm)
  | some k => (Except.error Err.ioWriteFailed, setFile fs path (data.take k) perm)

namespace Sec

/-- The fixed key-file path (`expandPath("~/.sec.key")`). -/
def keyPath : String := "~/.sec.key"

/-- Model of sec.go `getOrCreateStaticKey`: return the key file's contents
if it exists with exactly 32 bytes; fail with the configuration error
`invalid key file length` (leaving the file untouched) on any other
length; otherwise draw 32 bytes from the random source and write them to
the key path with permission `0600`.  The random source is an explicit
supply of byte strings. -/
def getOrCreateStaticKey (fs : FS) (rnd : List Bytes) (fault : Option Nat) :
    Except Err Bytes × FS × List Bytes :=
  match readFile fs keyPath with
  | some data =>
    if data.length = 32 then (Except.ok data, fs, rnd)
    else (Except.error Err.configError, fs, rnd)
  | none =>
    match rnd with
    | [] => (Except.error Err.randFailed, fs, rnd)
    | k :: r =>
      match writeFile fs keyPath k 0o600 fault with
      | (Except.ok _, fs2) => (Except.ok k, fs2, r)
      | (Except.error e, fs2) => (Except.error e, fs2, r)

/-- Model of sec.go `loadStore`: a missing file is first run and yields the
empty store; otherwise read all bytes and delegate to `decryptStore`. -/
def loadStore (fs : FS) (path : String) (key : Bytes) : Except Err SecretStore :=
  match readFile fs path with
  | none => Except.ok []
  | some data => decryptStore data key

/-- Model of sec.go `saveStore`: encrypt, then `ioutil.WriteFile` the
ciphertext over the vault path with permission `0600`. -/
def saveStore (fs : FS) (path : String) (store : SecretStore) (key nonce : Bytes)
    (fault : Option Nat) : Except Err Unit × FS :=
  match encryptStore store key nonce with
  | Except.error e => (Except.error e, fs)
  | Except.ok data => writeFile fs path data 0o600 fault

end Sec

/-- C8: for every filesystem and path at which no vault file exists, load
returns the empty mapping and does not fail. -/
theorem c8_load_missing_file (fs : FS) (path : String) (key : Bytes)
    (h : readFile fs path = none) :
    Sec.loadStore fs path key = Except.ok [] := by
  unfold Sec.loadStore
  rw [h]

/-- C8 witness: loading from an empty filesystem. -/
theorem c8_load_missing_file_witness :
    Sec.loadStore [] "~/.sec.enc" (List.replicate 32 0) = Except.ok [] :=
  c8_load_missing_file [] "~/.sec.enc" (List.replicate 32 0) rfl

/-- C6: the three contractual cases of `getOrCreateStaticKey`: an existing
32-byte key file is returned as is; a missing key file is created from 32
fresh random bytes with permission `0600` and those bytes are returned; a
key file of any other length fails with the configuration error and the
filesystem (in particular the key file) is untouched. -/
theorem c6_getOrCreateStaticKey :
    (∀ (fs : FS) (rnd : List Bytes) (fault : Option Nat) (d : Bytes),
      readFile fs Sec.keyPath = some d → d.length = 32 →
      Sec.getOrCreateStaticKey fs rnd fault = (Except.ok d, fs, rnd)) ∧
    (∀ (fs : FS) (k : Bytes) (r : List Bytes),
      readFile fs Sec.keyPath = none → k.length = 32 →
      Sec.getOrCreateStaticKey fs (k :: r) none =
        (Except.ok k, setFile fs Sec.keyPath k 0o600, r)) ∧
    (∀ (fs : FS) (rnd : List Bytes) (fault : Option Nat) (d : Bytes),
      readFile fs Sec.keyPath = some d → d.length ≠ 32 →
      Sec.getOrCreateStaticKey fs rnd fault = (Except.error Err.configError, fs, rnd)) := by
  refine ⟨?_, ?_, ?_⟩
  · intro fs rnd fault d hread hlen
    unfold Sec.getOrCreateStaticKey
    rw [hread]
    simp [hlen]
  · intro fs k r hread _
    unfold Sec.getOrCreateStaticKey
    rw [hread]
    rfl
  · intro fs rnd fault d hread hlen
    unfold Sec.getOrCreateStaticKey
    rw [hread]
    simp [hlen]

/-- C6 witness: concrete instances of all three cases (the 31-byte key
file case fails and is untouched). -/
theorem c6_getOrCreateStaticKey_witness :
    Sec.getOrCreateStaticKey [(Sec.keyPath, List.replicate 32 7, 0o600)] [] none =
      (Except.ok (List.replicate 32 7), [(Sec.keyPath, List.replicate 32 7, 0o600)], []) ∧
    Sec.getOrCreateStaticKey [] [List.replicate 32 9] none =
      (Except.ok (List.replicate 32 9),
        setFile [] Sec.keyPath (List.replicate 32 9) 0o600, []) ∧
    Sec.getOrCreateStaticKey [(Sec.keyPath, List.replicate 31 7, 0o600)] [] none =
      (Except.error Err.configError, [(Sec.keyPath, List.replicate 31 7, 0o600)], []) :=
  ⟨c6_getOrCreateStaticKey.1 [(Sec.keyPath, List.replicate 32 7, 0o600)] [] none
     (List.replicate 32 7) (by simp [readFile]) (by decide),
   c6_getOrCreateStaticKey.2.1 [] (List.replicate 32 9) [] rfl (by decide),
   c6_getOrCreateStaticKey.2.2 [(Sec.keyPath, List.replicate 31 7, 0o600)] [] none
     (List.replicate 31 7) (by simp [readFile]) (by decide)⟩

/-- C2 counterexample: save is not atomic.  With a vault file containing
`[1,2,3]` and a write fault after 0 bytes, `saveStore` fails and the
previously existing vault file has been replaced (truncated to empty). -/
theorem c2_save_atomic_counterexample :
    (Sec.saveStore [("~/.sec.enc", [1, 2, 3], 0o600)] "~/.sec.enc" []
        (List.replicate 32 0) (List.replicate 24 1) (some 0)).1 =
      Except.error Err.ioWriteFailed ∧
    readFile (Sec.saveStore [("~/.sec.enc", [1, 2, 3], 0o600)] "~/.sec.enc" []
        (List.replicate 32 0) (List.replicate 24 1) (some 0)).2 "~/.sec.enc" =
      some [] ∧
    some ([] : Bytes) ≠
      readFile [("~/.sec.enc", [1, 2, 3], 0o600)] "~/.sec.enc" := by
  refine ⟨rfl, ?_, by decide⟩
  rfl

/-- C2 (amended): save is all-or-nothing only with respect to the
encryption step: if encryption fails, no write happens and the filesystem
is unchanged.  The write itself is a direct truncating `WriteFile`, so an
I/O failure after `k` bytes leaves the vault file replaced by the first
`k` bytes of the new ciphertext, not the previous contents. -/
theorem c2_save_atomic_amended :
    (∀ (fs : FS) (path : String) (store : SecretStore) (key nonce : Bytes)
      (fault : Option Nat), key.length ≠ 32 →
      Sec.saveStore fs path store key nonce fault = (Except.error Err.badKeyLength, fs)) ∧
    (∀ (fs : FS) (path : String) (store : SecretStore) (key nonce : Bytes) (k : Nat),
      key.length = 32 →
      Sec.saveStore fs path store key nonce (some k) =
        (Except.error Err.ioWriteFailed,
         setFile fs path
           ((nonce ++ xchachaSeal key nonce (jsonMarshal store)).take k) 0o600)) := by
  constructor
  · intro fs path store key nonce fault hk
    unfold Sec.saveStore Sec.encryptStore
    rw [if_pos hk]
  · intro fs path store key nonce k hk
    unfold Sec.saveStore Sec.encryptStore
    rw [if_neg (by omega)]
    rfl

/-- C2 witness: both amended cases at concrete inputs. -/
theorem c2_save_atomic_amended_witness :
    Sec.saveStore [] "~/.sec.enc" [] [0] (List.replicate 24 1) none =
      (Except.error Err.badKeyLength, []) ∧
    Sec.saveStore [] "~/.sec.enc" [] (List.replicate 32 0) (List.replicate 24 1) (some 2) =
      (Except.error Err.ioWriteFailed,
       setFile [] "~/.sec.enc"
         ((List.replicate 24 1 ++ xchachaSeal (List.replicate 32 0) (List.replicate 24 1)
           (jsonMarshal [])).take 2) 0o600) :=
  ⟨c2_save_atomic_amended.1 [] "~/.sec.enc" [] [0] (List.replicate 24 1) none (by decide),
   c2_save_atomic_amended.2 [] "~/.sec.enc" [] (List.replicate 32 0) (List.replicate 24 1) 2
     (by decide)⟩

/-! ### bcrypt model (`golang.org/x/crypto/bcrypt`)

The library is external; it is modelled at contract level as a
deterministic digest.  Like real bcrypt, only the first 72 bytes of the
password take part.  `CompareHashAndPassword` succeeds exactly when the
recomputed digest equals the stored hash (the real comparison re-hashes
under the stored salt and compares in constant time). -/

/-- Model of `bcrypt.GenerateFromPassword` (the leading bytes play the
role of the `$2a$...` version/cost/salt header). -/
def bcryptGenerate (pin : Bytes) : Bytes := 36 :: 50 :: 97 :: 36 :: pin.take 72

/-- Model of `bcrypt.CompareHashAndPassword` (true means `nil` error). -/
def bcryptCompare (hash pin : Bytes) : Bool := decide (hash = bcryptGenerate pin)

namespace StoreGo

/-- The bounded retry loop of store.go `requirePIN`: each iteration prompts
for one PIN (one stdin entry); a match returns success at once; exhausting
the attempts yields the too-many-attempts error; exhausted input is a
prompt I/O error. -/
def requirePINLoop (hash : Bytes) : Nat → List Bytes → Except Err Unit × List Bytes
  | 0, pins => (Except.error Err.tooManyAttempts, pins)
  | _ + 1, [] => (Except.error Err.noInput, [])
  | n + 1, p :: rest =>
    if bcryptCompare hash p then (Except.ok (), rest)
    else requirePINLoop hash n rest

/-- Model of `requirePIN` in src/sec/store/store.go: immediate success when
no verifier entry is stored (no prompt, stdin untouched); otherwise up to
`maxAttempts = 3` prompted attempts compared against the stored bcrypt
verifier. -/
def requirePIN (store : SecretStore) (pins : List Bytes) :
    Except Err Unit × List Bytes :=
  match mapGet? store pinKey with
  | none => (Except.ok (), pins)
  | some hash => requirePINLoop hash 3 pins

/-- Model of `setPIN` in src/sec/store/store.go: prompt for a new PIN, hash
it, and store it under the sentinel key (unconditionally). -/
def setPIN (store : SecretStore) (pins : List Bytes) :
    Except Err SecretStore × List Bytes :=
  match pins with
  | [] => (Except.error Err.noInput, [])
  | pin :: rest => (Except.ok (mapSet store pinKey (bcryptGenerate pin)), rest)

end StoreGo

/-- C3: the PIN verification contract of store.go `requirePIN`: no verifier
means immediate success without consuming any input; with a verifier, the
first matching attempt within 3 succeeds, and 3 consecutive mismatches
yield the too-many-attempts error. -/
theorem c3_verify_bounded_retry :
    (∀ (store : SecretStore) (pins : List Bytes), mapGet? store pinKey = none →
      StoreGo.requirePIN store pins = (Except.ok (), pins)) ∧
    (∀ (store : SecretStore) (hash p0 : Bytes) (rest : List Bytes),
      mapGet? store pinKey = some hash → bcryptCompare hash p0 = true →
      StoreGo.requirePIN store (p0 :: rest) = (Except.ok (), rest)) ∧
    (∀ (store : SecretStore) (hash p0 p1 : Bytes) (rest : List Bytes),
      mapGet? store pinKey = some hash →
      bcryptCompare hash p0 = false → bcryptCompare hash p1 = true →
      StoreGo.requirePIN store (p0 :: p1 :: rest) = (Except.ok (), rest)) ∧
    (∀ (store : SecretStore) (hash p0 p1 p2 : Bytes) (rest : List Bytes),
      mapGet? store pinKey = some hash →
      bcryptCompare hash p0 = false → bcryptCompare hash p1 = false →
      bcryptCompare hash p2 = true →
      StoreGo.requirePIN store (p0 :: p1 :: p2 :: rest) = (Except.ok (), rest)) ∧
    (∀ (store : SecretStore) (hash p0 p1 p2 : Bytes) (rest : List Bytes),
      mapGet? store pinKey = some hash →
      bcryptCompare hash p0 = false → bcryptCompare hash p1 = false →
      bcryptCompare hash p2 = false →
      StoreGo.requirePIN store (p0 :: p1 :: p2 :: rest) =
        (Except.error Err.tooManyAttempts, rest)) := by
  refine ⟨?_, ?_, ?_, ?_, ?_⟩
  · intro store pins h
    unfold StoreGo.requirePIN
    rw [h]
  · intro store hash p0 rest h h0
    unfold StoreGo.requirePIN
    rw [h]
    simp [StoreGo.requirePINLoop, h0]
  · intro store hash p0 p1 rest h h0 h1
    unfold StoreGo.requirePIN
    rw [h]
    simp [StoreGo.requirePINLoop, h0, h1]
  · intro store hash p0 p1 p2 rest h h0 h1 h2
    unfold StoreGo.requirePIN
    rw [h]
    simp [StoreGo.requirePINLoop, h0, h1, h2]
  · intro store hash p0 p1 p2 rest h h0 h1 h2
    unfold StoreGo.requirePIN
    rw [h]
    simp [StoreGo.requirePINLoop, h0, h1, h2]

/-- C3 witness: with the verifier for PIN `[1,2,3,4]` stored, a correct
first attempt succeeds, a correct third attempt succeeds, and three wrong
attempts lock out; without a verifier there is no prompt. -/
theorem c3_verify_bounded_retry_witness :
    StoreGo.requirePIN [] [[9]] = (Except.ok (), [[9]]) ∧
    StoreGo.requirePIN [(pinKey, bcryptGenerate [1, 2, 3, 4])]
      [[1, 2, 3, 4], [7]] = (Except.ok (), [[7]]) ∧
    StoreGo.requirePIN [(pinKey, bcryptGenerate [1, 2, 3, 4])]
      [[5], [6], [1, 2, 3, 4], [7]] = (Except.ok (), [[7]]) ∧
    StoreGo.requirePIN [(pinKey, bcryptGenerate [1, 2, 3, 4])]
      [[5], [6], [8], [7]] = (Except.error Err.tooManyAttempts, [[7]]) :=
  ⟨c3_verify_bounded_retry.1 [] [[9]] rfl,
   c3_verify_bounded_retry.2.1 _ (bcryptGenerate [1, 2, 3, 4]) [1, 2, 3, 4] [[7]]
     rfl (by decide),
   c3_verify_bounded_retry.2.2.2.1 _ (bcryptGenerate [1, 2, 3, 4]) [5] [6] [1, 2, 3, 4]
     [[7]] rfl (by decide) (by decide) (by decide),
   c3_verify_bounded_retry.2.2.2.2 _ (bcryptGenerate [1, 2, 3, 4]) [5] [6] [8] [[7]]
     rfl (by decide) (by decide) (by decide)⟩

/-- The printed key listing of sec.go's `list` command: every key of the
store except the reserved sentinel, in storage order. -/
def listKeys : SecretStore → List Bytes
  | [] => []
  | (k, _) :: t => if k = pinKey then listKeys t else k :: listKeys t

namespace Sec

/-- Model of `requirePIN` in sec.go (the copy used by the CLI commands):
immediate success when no verifier entry is stored; otherwise one prompted
attempt, compared against the stored bcrypt verifier; a mismatch is the
`incorrect PIN` error. -/
def requirePIN (store : SecretStore) (pins : List Bytes) :
    Except Err Unit × List Bytes :=
  match mapGet? store pinKey with
  | none => (Except.ok (), pins)
  | some hash =>
    match pins with
    | [] => (Except.error Err.noInput, [])
    | p :: rest =>
      if bcryptCompare hash p then (Except.ok (), rest)
      else (Except.error Err.incorrectPIN, rest)

/-- The CLI commands of sec.go (cobra subcommands), with their positional
arguments. -/
inductive Cmd where
  | set (name value : Bytes)
  | get (name : Bytes)
  | delete (name : Bytes)
  | list
  | setPin
  | changePin
  | removePin

/-- Outcome of one command execution: the result, the mapping handed to
`saveStore` (`none` when the command does not save, so the vault file is
unchanged), the printed lines, and the remaining stdin. -/
structure CmdOutcome where
  result : Except Err Unit
  save : Option SecretStore
  printed : List Bytes
  stdin : List Bytes

/-- The body (`Run` function) of each cobra command, acting on the store it
reloads — identical to the store the persistent pre-run hook loaded, since
nothing writes in between.  `set`/`delete` mutate and save; `get`/`list`
only print; `set-pin` refuses when a verifier exists (printing that the
user should use change-pin or remove-pin, modelled as the
`pinAlreadySet` outcome) and otherwise prompts, hashes and saves;
`change-pin` and `remove-pin` call `requirePIN` again themselves before
mutating. -/
def runBody : Cmd → SecretStore → List Bytes → CmdOutcome
  | .set name value, store, stdin =>
    ⟨Except.ok (), some (mapSet store name value), [], stdin⟩
  | .get name, store, stdin => ⟨Except.ok (), none, [mapGet store name], stdin⟩
  | .delete name, store, stdin =>
    ⟨Except.ok (), some (mapDelete store name), [], stdin⟩
  | .list, store, stdin => ⟨Except.ok (), none, listKeys store, stdin⟩
  | .setPin, store, stdin =>
    if mapHas store pinKey then ⟨Except.error Err.pinAlreadySet, none, [], stdin⟩
    else match stdin with
      | [] => ⟨Except.error Err.noInput, none, [], []⟩
      | pin :: rest =>
        ⟨Except.ok (), some (mapSet store pinKey (bcryptGenerate pin)), [], rest⟩
  | .changePin, store, stdin =>
    match requirePIN store stdin with
    | (Except.error e, rest) => ⟨Except.error e, none, [], rest⟩
    | (Except.ok _, rest) =>
      match rest with
      | [] => ⟨Except.error Err.noInput, none, [], []⟩
      | pin :: rest2 =>
        ⟨Except.ok (), some (mapSet store pinKey (bcryptGenerate pin)), [], rest2⟩
  | .removePin, store, stdin =>
    match requirePIN store stdin with
    | (Except.error e, rest) => ⟨Except.error e, none, [], rest⟩
    | (Except.ok _, rest) => ⟨Except.ok (), some (mapDelete store pinKey), [], rest⟩

/-- A full command run: cobra runs the root command's
`PersistentPreRunE` — which calls `requirePIN` on the loaded store — before
every subcommand's body; an error there aborts the run with nothing saved. -/
def runCmd (c : Cmd) (store : SecretStore) (stdin : List Bytes) : CmdOutcome :=
  match requirePIN store stdin with
  | (Except.error e, rest) => ⟨Except.error e, none, [], rest⟩
  | (Except.ok _, rest) => runBody c store rest

end Sec

/-! ### Helper lemmas about the map operations and the listing -/

theorem listKeys_not_pin : ∀ s : SecretStore, pinKey ∉ listKeys s := by
  intro s
  induction s with
  | nil => simp [listKeys]
  | cons p t ih =>
    obtain ⟨k, v⟩ := p
    by_cases hk : k = pinKey
    · simp [listKeys, hk, ih]
    · simp [listKeys, hk, ih]
      exact fun he => hk he.symm

theorem mem_listKeys : ∀ (s : SecretStore) (k : Bytes), k ≠ pinKey →
    mapHas s k = true → k ∈ listKeys s := by
  intro s
  induction s with
  | nil => intro k _ h; simp [mapHas, mapGet?] at h
  | cons p t ih =>
    intro k hk h
    obtain ⟨k1, v1⟩ := p
    by_cases he : k = k1
    · subst he
      simp [listKeys, hk]
    · simp only [mapHas, mapGet?, if_neg he] at h
      by_cases h1 : k1 = pinKey
      · simp only [listKeys, if_pos h1]
        exact ih k hk h
      · simp only [listKeys, if_neg h1]
        exact List.mem_cons_of_mem _ (ih k hk h)

theorem mapGet?_mapSet_self : ∀ (s : SecretStore) (k v : Bytes),
    mapGet? (mapSet s k v) k = some v := by
  intro s
  induction s with
  | nil => intro k v; simp [mapSet, mapGet?]
  | cons p t ih =>
    intro k v
    obtain ⟨k1, v1⟩ := p
    by_cases he : k = k1
    · simp [mapSet, he, mapGet?]
    · simp only [mapSet, if_neg he]
      by_cases hlt : lexLt k k1 = true
      · simp [hlt, mapGet?]
      · simp only [if_neg hlt, mapGet?, if_neg he]
        exact ih k v

theorem mapHas_mapDelete_self : ∀ (s : SecretStore) (k : Bytes),
    mapHas (mapDelete s k) k = false := by
  intro s
  induction s with
  | nil => intro k; rfl
  | cons p t ih =>
    intro k
    obtain ⟨k1, v1⟩ := p
    by_cases he : k1 = k
    · simp only [mapDelete, if_pos he]
      exact ih k
    · have hne : ¬ k = k1 := fun h => he (Eq.symm h)
      simp only [mapDelete, if_neg he, mapHas, mapGet?, if_neg hne]
      exact ih k

/-- The single-attempt `requirePIN` in sec.go only fails with the missing
input error or the incorrect-PIN error. -/
theorem sec_requirePIN_error_kinds (store : SecretStore) (pins : List Bytes)
    (e : Err) (rest : List Bytes)
    (h : Sec.requirePIN store pins = (Except.error e, rest)) :
    e = Err.noInput ∨ e = Err.incorrectPIN := by
  unfold Sec.requirePIN at h
  cases hg : mapGet? store pinKey with
  | none => rw [hg] at h; simp at h
  | some hash =>
    rw [hg] at h
    cases pins with
    | nil => simp at h; left; exact h.1.symm
    | cons p rest2 =>
      by_cases hc : bcryptCompare hash p = true
      · simp [hc] at h
      · simp only [Bool.not_eq_true] at hc
        simp [hc] at h
        right
        exact h.1.symm

/-- C4: once a verifier is present, no command reaches a save (a vault
mutation) without a prior successful verify: a failing pre-run verify
aborts every command with nothing saved; any save implies the pre-run
verify succeeded; and change-pin / remove-pin additionally require their
own second verify to succeed before mutating. -/
theorem c4_no_transition_bypasses_verify :
    (∀ (c : Sec.Cmd) (store : SecretStore) (stdin : List Bytes) (e : Err)
      (rest : List Bytes),
      Sec.requirePIN store stdin = (Except.error e, rest) →
      Sec.runCmd c store stdin = ⟨Except.error e, none, [], rest⟩) ∧
    (∀ (c : Sec.Cmd) (store : SecretStore) (stdin : List Bytes),
      mapHas store pinKey = true →
      (Sec.runCmd c store stdin).save.isSome = true →
      (Sec.requirePIN store stdin).1 = Except.ok ()) ∧
    (∀ (store : SecretStore) (stdin : List Bytes),
      (Sec.runCmd Sec.Cmd.changePin store stdin).save.isSome = true →
      (Sec.requirePIN store (Sec.requirePIN store stdin).2).1 = Except.ok ()) ∧
    (∀ (store : SecretStore) (stdin : List Bytes),
      (Sec.runCmd Sec.Cmd.removePin store stdin).save.isSome = true →
      (Sec.requirePIN store (Sec.requirePIN store stdin).2).1 = Except.ok ()) := by
  refine ⟨?_, ?_, ?_, ?_⟩
  · intro c store stdin e rest h
    unfold Sec.runCmd
    rw [h]
  · intro c store stdin _ hsave
    unfold Sec.runCmd at hsave
    rcases h1 : Sec.requirePIN store stdin with ⟨r1, rest1⟩
    rw [h1] at hsave
    cases r1 with
    | error e => simp at hsave
    | ok u => cases u; rfl
  · intro store stdin hsave
    unfold Sec.runCmd at hsave
    rcases h1 : Sec.requirePIN store stdin with ⟨r1, rest1⟩
    rw [h1] at hsave
    cases r1 with
    | error e => simp at hsave
    | ok u =>
      cases u
      show (Sec.requirePIN store rest1).1 = Except.ok ()
      simp only [] at hsave
      unfold Sec.runBody at hsave
      simp only [] at hsave
      rcases h2 : Sec.requirePIN store rest1 with ⟨r2, rest2⟩
      cases r2 with
      | error e => rw [h2] at hsave; simp at hsave
      | ok u2 => cases u2; rfl
  · intro store stdin hsave
    unfold Sec.runCmd at hsave
    rcases h1 : Sec.requirePIN store stdin with ⟨r1, rest1⟩
    rw [h1] at hsave
    cases r1 with
    | error e => simp at hsave
    | ok u =>
      cases u
      show (Sec.requirePIN store rest1).1 = Except.ok ()
      simp only [] at hsave
      unfold Sec.runBody at hsave
      simp only [] at hsave
      rcases h2 : Sec.requirePIN store rest1 with ⟨r2, rest2⟩
      cases r2 with
      | error e => rw [h2] at hsave; simp at hsave
      | ok u2 => cases u2; rfl

/-- C4 witness: with a verifier stored, a wrong single attempt aborts the
sentinel-deleting command with nothing saved. -/
theorem c4_no_transition_bypasses_verify_witness :
    Sec.runCmd (Sec.Cmd.delete pinKey) [(pinKey, bcryptGenerate [1])] [[2]] =
      ⟨Except.error Err.incorrectPIN, none, [], []⟩ :=
  c4_no_transition_bypasses_verify.1 (Sec.Cmd.delete pinKey)
    [(pinKey, bcryptGenerate [1])] [[2]] Err.incorrectPIN [] (by rfl)

/-- C5: with a verifier present (and the pre-run verify passed), the
explicit set-pin command fails with the already-set outcome and neither
mutates the mapping nor saves; the change-pin command never produces that
outcome. -/
theorem c5_setpin_already_set :
    (∀ (store : SecretStore) (stdin rest : List Bytes),
      mapHas store pinKey = true →
      Sec.requirePIN store stdin = (Except.ok (), rest) →
      Sec.runCmd Sec.Cmd.setPin store stdin =
        ⟨Except.error Err.pinAlreadySet, none, [], rest⟩) ∧
    (∀ (store : SecretStore) (stdin : List Bytes),
      (Sec.runCmd Sec.Cmd.changePin store stdin).result ≠
        Except.error Err.pinAlreadySet) := by
  constructor
  · intro store stdin rest hhas hreq
    unfold Sec.runCmd
    rw [hreq]
    simp only []
    unfold Sec.runBody
    simp only []
    rw [if_pos hhas]
  · intro store stdin h
    unfold Sec.runCmd at h
    rcases h1 : Sec.requirePIN store stdin with ⟨r1, rest1⟩
    rw [h1] at h
    cases r1 with
    | error e =>
      rcases sec_requirePIN_error_kinds store stdin e rest1 h1 with he | he <;>
        simp [he] at h
    | ok u =>
      cases u
      simp only [] at h
      unfold Sec.runBody at h
      simp only [] at h
      rcases h2 : Sec.requirePIN store rest1 with ⟨r2, rest2⟩
      cases r2 with
      | error e =>
        rw [h2] at h
        rcases sec_requirePIN_error_kinds store rest1 e rest2 h2 with he | he <;>
          simp [he] at h
      | ok u2 =>
        cases u2
        rw [h2] at h
        cases rest2 with
        | nil => simp at h
        | cons pin rest3 => simp at h

/-- C5 witness: with the verifier for `[1]` stored and the correct PIN
supplied to the pre-run verify, set-pin reports the PIN is already set and
nothing is saved. -/
theorem c5_setpin_already_set_witness :
    Sec.runCmd Sec.Cmd.setPin [(pinKey, bcryptGenerate [1])] [[1]] =
      ⟨Except.error Err.pinAlreadySet, none, [], []⟩ :=
  c5_setpin_already_set.1 [(pinKey, bcryptGenerate [1])] [[1]] [] (by decide) (by rfl)

/-- C9: the listing never contains the reserved sentinel key, even when the
verifier entry is present; every other key of the mapping appears; and the
list command prints exactly this listing once the pre-run verify passes. -/
theorem c9_list_excludes_sentinel :
    (∀ store : SecretStore, pinKey ∉ listKeys store) ∧
    (∀ (store : SecretStore) (k : Bytes), k ≠ pinKey → mapHas store k = true →
      k ∈ listKeys store) ∧
    (∀ (store : SecretStore) (stdin rest : List Bytes),
      Sec.requirePIN store stdin = (Except.ok (), rest) →
      (Sec.runCmd Sec.Cmd.list store stdin).printed = listKeys store) := by
  refine ⟨listKeys_not_pin, mem_listKeys, ?_⟩
  intro store stdin rest hreq
  unfold Sec.runCmd
  rw [hreq]
  rfl

/-- C9 witness: a mapping holding both a secret and the verifier lists the
secret and not the sentinel. -/
theorem c9_list_excludes_sentinel_witness :
    [107] ∈ listKeys [([107], [118]), (pinKey, bcryptGenerate [1])] ∧
    (Sec.runCmd Sec.Cmd.list [(pinKey, bcryptGenerate [1])] [[1]]).printed =
      listKeys [(pinKey, bcryptGenerate [1])] :=
  ⟨c9_list_excludes_sentinel.2.1 [([107], [118]), (pinKey, bcryptGenerate [1])] [107]
     (by decide) (by decide),
   c9_list_excludes_sentinel.2.2 [(pinKey, bcryptGenerate [1])] [[1]] [] (by rfl)⟩

/-- C10: the per-name operations treat the sentinel as an ordinary entry:
`get` on the sentinel returns the stored hash, `get` on an absent name
returns the empty string, `set` on the sentinel overwrites the verifier
with an arbitrary value, `delete` on the sentinel removes the verifier —
and only `list` filters the sentinel out. -/
theorem c10_sentinel_is_ordinary_entry :
    (∀ (store : SecretStore) (hash : Bytes), mapGet? store pinKey = some hash →
      mapGet store pinKey = hash) ∧
    (∀ (store : SecretStore) (k : Bytes), mapHas store k = false →
      mapGet store k = []) ∧
    (∀ (store : SecretStore) (v : Bytes), mapGet? (mapSet store pinKey v) pinKey = some v) ∧
    (∀ store : SecretStore, mapHas (mapDelete store pinKey) pinKey = false) ∧
    (∀ (store : SecretStore) (v : Bytes), pinKey ∉ listKeys (mapSet store pinKey v)) ∧
    (∀ (store : SecretStore) (stdin rest : List Bytes) (name : Bytes),
      Sec.requirePIN store stdin = (Except.ok (), rest) →
      (Sec.runCmd (Sec.Cmd.get name) store stdin).printed = [mapGet store name] ∧
      (Sec.runCmd (Sec.Cmd.set name [0]) store stdin).save = some (mapSet store name [0]) ∧
      (Sec.runCmd (Sec.Cmd.delete name) store stdin).save =
        some (mapDelete store name)) := by
  refine ⟨?_, ?_, ?_, ?_, ?_, ?_⟩
  · intro store hash h
    unfold mapGet
    rw [h]
    rfl
  · intro store k h
    unfold mapGet
    unfold mapHas at h
    cases hg : mapGet? store k with
    | none => rfl
    | some v => rw [hg] at h; simp at h
  · exact fun store v => mapGet?_mapSet_self store pinKey v
  · exact fun store => mapHas_mapDelete_self store pinKey
  · exact fun store v => listKeys_not_pin (mapSet store pinKey v)
  · intro store stdin rest name hreq
    unfold Sec.runCmd
    rw [hreq]
    exact ⟨rfl, rfl, rfl⟩

/-- C10 witness: concrete sentinel reads, writes and deletes. -/
theorem c10_sentinel_is_ordinary_entry_witness :
    mapGet [(pinKey, [9, 9])] pinKey = [9, 9] ∧
    mapGet [(pinKey, [9, 9])] [120] = [] ∧
    (Sec.runCmd (Sec.Cmd.delete pinKey) [(pinKey, bcryptGenerate [1])] [[1]]).save =
      some (mapDelete [(pinKey, bcryptGenerate [1])] pinKey) :=
  ⟨c10_sentinel_is_ordinary_entry.1 [(pinKey, [9, 9])] [9, 9] (by decide),
   c10_sentinel_is_ordinary_entry.2.1 [(pinKey, [9, 9])] [120] (by decide),
   (c10_sentinel_is_ordinary_entry.2.2.2.2.2 [(pinKey, bcryptGenerate [1])] [[1]] []
     pinKey (by rfl)).2.2⟩
